import Mathlib

/-!
Shallow embedding of the package-orchestration core of jwmatthews/kpt:
the repository cache (`porch/pkg/cache/repository.go`) and the CaD engine
(`porch/engine/pkg/engine/engine.go`).  Pure functions are translated to
Lean functions; the stateful cache is explicit state passing; calls into
external collaborators (the backing repository, the Draft, function
runners) are modelled as oracle parameters, and the sequence of calls the
code makes to them is returned as an explicit event trace.
-/

namespace KptPorch

/-! ## Semantic versions

Model of `golang.org/x/mod/semver`, the library used by
`identifyLatestRevisions`.  A version string must start with `v` followed by
`MAJOR[.MINOR[.PATCH[-PRERELEASE][+BUILD]]]`; numbers have no leading zeros;
build metadata is validated but ignored by comparison; an invalid version
compares less than every valid one and equal to every invalid one.
-/

namespace Semver

/-- One dot-separated prerelease identifier: all-digit identifiers are
numeric (compared by value, which matches Go's length-then-bytes comparison
because leading zeros are rejected at parse time), the rest are
alphanumeric (compared bytewise; identifiers are ASCII so Lean's
codepoint-wise `String` order agrees with Go's byte order). -/
inductive PreId
  | num (n : Nat)
  | alpha (s : String)
  deriving DecidableEq, Repr

/-- Numeric identifiers sort before alphanumeric ones (semver rule 11.4.3). -/
def cmpPreId : PreId → PreId → Ordering
  | .num a, .num b => compare a b
  | .num _, .alpha _ => .lt
  | .alpha _, .num _ => .gt
  | .alpha a, .alpha b => compare a b

/-- Lexicographic comparison of nonempty prerelease identifier lists; a
strict prefix sorts first (semver rule 11.4.4). -/
def cmpPreIds : List PreId → List PreId → Ordering
  | [], [] => .eq
  | [], _ :: _ => .lt
  | _ :: _, [] => .gt
  | a :: as, b :: bs => (cmpPreId a b).then (cmpPreIds as bs)

/-- Comparison of whole prerelease fields, where `[]` stands for "no
prerelease" and sorts after every nonempty prerelease (semver rule 11.3),
mirroring `comparePrerelease` in `x/mod/semver`. -/
def cmpPrerelease : List PreId → List PreId → Ordering
  | [], [] => .eq
  | [], _ :: _ => .gt
  | _ :: _, [] => .lt
  | a :: as, b :: bs => cmpPreIds (a :: as) (b :: bs)

/-- The comparison-relevant content of a parsed version (`parsed` in
`x/mod/semver`, with the numeric fields as numbers and the build metadata
dropped, as `Compare` ignores it). -/
structure SemVer where
  major : Nat
  minor : Nat
  patch : Nat
  prerelease : List PreId
  deriving DecidableEq, Repr

/-- Precedence order on parsed versions: major, minor, patch, prerelease. -/
def cmpSemVer (a b : SemVer) : Ordering :=
  (compare a.major b.major).then ((compare a.minor b.minor).then
    ((compare a.patch b.patch).then (cmpPrerelease a.prerelease b.prerelease)))


/-- Go `isIdentChar`: ASCII letters, digits and dashes. -/
def isIdentChar (c : Char) : Bool := c.isUpper || c.isLower || c.isDigit || c == '-'

/-- Numeric value of a digit run.  Go keeps the digit string and compares
numbers by length and then bytewise; with leading zeros excluded by the
parser this coincides with comparing the values. -/
def digitsVal (ds : List Char) : Nat := ds.foldl (fun acc c => acc * 10 + (c.toNat - 48)) 0

/-- Go `parseInt`: a nonempty run of digits with no leading zero (except
exactly "0"); returns the value and the unconsumed rest. -/
def parseInt (v : List Char) : Option (Nat × List Char) :=
  let ds := v.takeWhile Char.isDigit
  if ds.isEmpty then none
  else if ds.headD ' ' == '0' && ds.length != 1 then none
  else some (digitsVal ds, v.dropWhile Char.isDigit)

/-- Go `isBadNum`: an all-digit identifier of more than one digit that
starts with zero. -/
def isBadNum (s : List Char) : Bool :=
  s.all Char.isDigit && decide (1 < s.length) && s.headD ' ' == '0'

/-- Split an identifier segment at dots. -/
def splitDots : List Char → List (List Char)
  | [] => [[]]
  | c :: rest =>
    if c == '.' then [] :: splitDots rest
    else
      match splitDots rest with
      | g :: gs => (c :: g) :: gs
      | [] => [[c]]

/-- Classification used by Go `comparePrerelease`: all-digit identifiers
are numeric, the rest alphanumeric. -/
def mkPreId (s : List Char) : PreId :=
  if s.all Char.isDigit then .num (digitsVal s) else .alpha (String.mk s)

/-- Go `parsePrerelease`: after `-`, dot-separated identifiers over the
identifier alphabet, each nonempty and not a bad number, running up to a
`+` or the end of the string. -/
def parsePrerelease (v : List Char) : Option (List PreId × List Char) :=
  match v with
  | '-' :: rest =>
    let seg := rest.takeWhile (fun c => c != '+')
    let rem := rest.dropWhile (fun c => c != '+')
    if seg.all (fun c => isIdentChar c || c == '.') then
      if (splitDots seg).all (fun t => !t.isEmpty && !isBadNum t) then
        some ((splitDots seg).map mkPreId, rem)
      else none
    else none
  | _ => none

/-- Go `parseBuild`: after `+`, dot-separated nonempty identifier segments
running to the end of the string; the content is ignored by `Compare`. -/
def parseBuild (v : List Char) : Option Unit :=
  match v with
  | '+' :: rest =>
    if rest.all (fun c => isIdentChar c || c == '.') then
      if (splitDots rest).all (fun t => !t.isEmpty) then some () else none
    else none
  | _ => none

/-- What may follow the numeric core: an optional prerelease, then optional
build metadata, then the end of the string (the tail of Go `parse`). -/
def parseTail (r : List Char) : Option (List PreId) :=
  match r with
  | [] => some []
  | '-' :: _ =>
    match parsePrerelease r with
    | none => none
    | some (pre, rem) =>
      match rem with
      | [] => some pre
      | _ => match parseBuild rem with | none => none | some _ => some pre
  | _ => match parseBuild r with | none => none | some _ => some []

/-- Go `semver.parse`: a leading `v`, then the major number, optionally
`.minor`, optionally `.patch` followed by prerelease and build parts;
missing minor/patch default to zero and admit no prerelease or build. -/
def parse (v : String) : Option SemVer :=
  match v.data with
  | 'v' :: r0 =>
    match parseInt r0 with
    | none => none
    | some (major, r1) =>
      match r1 with
      | [] => some ⟨major, 0, 0, []⟩
      | '.' :: r2 =>
        match parseInt r2 with
        | none => none
        | some (minor, r3) =>
          match r3 with
          | [] => some ⟨major, minor, 0, []⟩
          | '.' :: r4 =>
            match parseInt r4 with
            | none => none
            | some (patch, r5) =>
              match parseTail r5 with
              | none => none
              | some pre => some ⟨major, minor, patch, pre⟩
          | _ => none
      | _ => none
  | _ => none

/-- Go `semver.IsValid`. -/
def IsValid (v : String) : Bool := (parse v).isSome

/-- Ordering-valued core of Go `semver.Compare`: an invalid version is
less than every valid one, and invalid versions compare equal. -/
def CompareO (v w : String) : Ordering :=
  match parse v, parse w with
  | none, none => .eq
  | none, some _ => .lt
  | some _, none => .gt
  | some a, some b => cmpSemVer a b

/-- Go `semver.Compare` with its -1/0/+1 integer result. -/
def Compare (v w : String) : Int :=
  match CompareO v w with
  | .lt => -1
  | .eq => 0
  | .gt => 1

end Semver

/-! ## Data model -/

/-- Publication state of a revision (`v1alpha1.PackageRevisionLifecycle`). -/
inductive Lifecycle
  | draft
  | proposed
  | published
  deriving DecidableEq, Repr

/-- The lifecycle string constants of the porch API. -/
def Lifecycle.toStr : Lifecycle → String
  | .draft => "Draft"
  | .proposed => "Proposed"
  | .published => "Published"

/-- `repository.PackageRevisionKey`. -/
structure PackageRevisionKey where
  Package : String
  Revision : String
  deriving DecidableEq, Repr

/-- The observables of a backing repository's `repository.PackageRevision`
that the cache reads: its key, lifecycle and stable object name. -/
structure PackageRevisionData where
  key : PackageRevisionKey
  lifecycle : Lifecycle
  kubeObjectName : String
  deriving DecidableEq, Repr

/-- `cachedPackageRevision`: a backend revision decorated with the derived
`isLatestRevision` flag. -/
structure CachedPackageRevision where
  rev : PackageRevisionData
  isLatestRevision : Bool
  deriving DecidableEq, Repr

/-- Go `error` values seen by this core: the recognizable validation errors
the engine creates, plus opaque collaborator errors. -/
inductive Err
  | cloneNotSet (t : String)
  | patchNotSet (t : String)
  | patchNotSupportedOnCreate
  | evalNotSet (t : String)
  | taskTypeNotSupported (t : String)
  | addRemoveTasksNotSupported
  | changeTaskTypesNotSupported
  | cloneOnlyFirstTask
  | updatingTaskTypeNotSupported (t : String)
  | cannotGetResources (e : Err)
  | backend (n : Nat)
  deriving DecidableEq, Repr

/-! ## The repository cache (`porch/pkg/cache/repository.go`) -/

/-- One entry of the `latest` map of `identifyLatestRevisions`, which is
keyed by package name; the value is the winning revision so far, recorded
here as its index in the slice together with its revision string. -/
abbrev LatestEntry := String × Nat × String

def lookupLatest (p : String) : List LatestEntry → Option (Nat × String)
  | [] => none
  | e :: rest => if e.1 = p then some e.2 else lookupLatest p rest

def insertLatest (p : String) (i : Nat) (s : String) : List LatestEntry → List LatestEntry
  | [] => [(p, i, s)]
  | e :: rest => if e.1 = p then (p, i, s) :: rest else e :: insertLatest p i s rest

/-- The body of the scanning loop of `identifyLatestRevisions` for the
element at index `i`: only `Published` revisions take part; a package's
slot is seeded by its first valid-semver revision and replaced exactly
when `semver.Compare` of the current against the stored revision is
positive (equal comparisons only warn and keep the stored winner). -/
def latestStep (m : List LatestEntry) (i : Nat) (c : CachedPackageRevision) :
    List LatestEntry :=
  if c.rev.lifecycle = Lifecycle.published then
    match lookupLatest c.rev.key.Package m with
    | some prev =>
      if 0 < Semver.Compare c.rev.key.Revision prev.2 then
        insertLatest c.rev.key.Package i c.rev.key.Revision m
      else m
    | none =>
      if Semver.IsValid c.rev.key.Revision then
        insertLatest c.rev.key.Package i c.rev.key.Revision m
      else m
  else m

def latestMapFrom (i : Nat) (m : List LatestEntry) :
    List CachedPackageRevision → List LatestEntry
  | [] => m
  | c :: rest => latestMapFrom (i + 1) (latestStep m i c) rest

/-- The marking loop of `identifyLatestRevisions`: every flag is cleared
and exactly the indices referenced by the final map are set. -/
def applyLatestFlags (m : List LatestEntry) :
    Nat → List CachedPackageRevision → List CachedPackageRevision
  | _, [] => []
  | i, c :: rest =>
    { c with isLatestRevision := m.any fun e => e.2.1 == i } ::
      applyLatestFlags m (i + 1) rest

/-- `identifyLatestRevisions` from `repository.go`. -/
def identifyLatestRevisions (l : List CachedPackageRevision) :
    List CachedPackageRevision :=
  applyLatestFlags (latestMapFrom 0 [] l) 0 l

/-- `toCachedPackageRevisionSlice`: wrap each backend revision with a
cleared flag, then recompute the latest markers. -/
def toCachedPackageRevisionSlice (revisions : List PackageRevisionData) :
    List CachedPackageRevision :=
  identifyLatestRevisions (revisions.map fun r => { rev := r, isLatestRevision := false })

/-- The comparator of the `sort.Slice` call in `toPackageRevisionSlice`:
ascending by package, then by raw revision string, then by lifecycle
string, then by stable object name.  Go's `strings.Compare` is bytewise on
UTF-8, which orders strings exactly as Lean's codepoint-wise `compare`. -/
def pkgRevCmp (a b : CachedPackageRevision) : Ordering :=
  (compare a.rev.key.Package b.rev.key.Package).then
    ((compare a.rev.key.Revision b.rev.key.Revision).then
      ((compare a.rev.lifecycle.toStr b.rev.lifecycle.toStr).then
        (compare a.rev.kubeObjectName b.rev.kubeObjectName)))

def pkgRevLess (a b : CachedPackageRevision) : Bool := pkgRevCmp a b == .lt


/-- Insertion step of the sort model. -/
def insertSorted (a : CachedPackageRevision) :
    List CachedPackageRevision → List CachedPackageRevision
  | [] => [a]
  | b :: t => if pkgRevLess a b then a :: b :: t else b :: insertSorted a t

def sortRevs (l : List CachedPackageRevision) : List CachedPackageRevision :=
  l.foldr insertSorted []

/-- `toPackageRevisionSlice`: keep the revisions accepted by the caller's
filter, then sort with the four-field comparator.  `sort.Slice` runs an
unspecified comparison sort; insertion sort is one, and under the
stable-name uniqueness hypothesis of listing determinism every comparison
sort returns this same list. -/
def toPackageRevisionSlice (cached : List CachedPackageRevision)
    (filter : CachedPackageRevision → Bool) : List CachedPackageRevision :=
  sortRevs (cached.filter filter)

/-- `updateOrAppend`: replace the first entry carrying the same stable
object name in place, else append at the end.  Whole-object replacement,
no field merge. -/
def updateOrAppend : List CachedPackageRevision → CachedPackageRevision →
    List CachedPackageRevision
  | [], n => [n]
  | c :: rest, n =>
    if c.rev.kubeObjectName = n.rev.kubeObjectName then n :: rest
    else c :: updateOrAppend rest n

/-- A repository function, opaque to the cache. -/
structure Function where
  name : String
  deriving DecidableEq, Repr

/-- The mutable fields of `cachedRepository`, guarded by its mutex.  `none`
models Go `nil`, the "not yet loaded" sentinel, distinct from "loaded but
empty". -/
structure CacheState where
  cachedPackages : Option (List CachedPackageRevision)
  cachedFunctions : Option (List Function)
  refreshError : Option Err
  deriving DecidableEq, Repr

/-- `cachedRepository.getPackages`.  The backend's `ListPackageRevisions`
result for this call is the `backend` oracle.  NOTE: in the Go source the
fetch's `p, err := ...` declares a new `err` inside the
`if packages == nil` block, shadowing the snapshot of `refreshError` taken
on entry; the error check guarding the final return therefore reads the
pre-call snapshot (`errOuter` below), not the fetch's error, while the
stored `refreshError` does receive the fetch's error.  The model
reproduces that behavior; ranging over a Go `nil` slice yields nothing,
hence the `Option.getD []`. -/
def getPackages (backend : Except Err (List PackageRevisionData))
    (filter : CachedPackageRevision → Bool) (forceRefresh : Bool) (st : CacheState) :
    CacheState × Except Err (List CachedPackageRevision) :=
  let errOuter := st.refreshError
  let packages := if forceRefresh then none else st.cachedPackages
  match packages with
  | some ps =>
    match errOuter with
    | some e => (st, .error e)
    | none => (st, .ok (toPackageRevisionSlice ps filter))
  | none =>
    let fetched : Option (List CachedPackageRevision) :=
      match backend with
      | .ok p => some (toCachedPackageRevisionSlice p)
      | .error _ => none
    let errInner : Option Err :=
      match backend with
      | .ok _ => none
      | .error e => some e
    let st' := { st with cachedPackages := fetched, refreshError := errInner }
    match errOuter with
    | some e => (st', .error e)
    | none => (st', .ok (toPackageRevisionSlice (fetched.getD []) filter))

/-- `cachedRepository.getFunctions`: serve from cache unless forced; a
backend that is not a `FunctionRepository` yields an empty list without
caching; a fetch failure is returned without touching the state. -/
def getFunctions (isFunctionRepo : Bool) (backend : Except Err (List Function))
    (force : Bool) (st : CacheState) : CacheState × Except Err (List Function) :=
  let functions := if force then none else st.cachedFunctions
  match functions with
  | some fs => (st, .ok fs)
  | none =>
    if isFunctionRepo then
      match backend with
      | .error e => (st, .error e)
      | .ok f => ({ st with cachedFunctions := some f }, .ok f)
    else (st, .ok [])

/-- `cachedRepository.pollOnce`: force a refresh of packages and then of
functions, dropping both results (errors are only logged). -/
def pollOnce (backendPkgs : Except Err (List PackageRevisionData)) (isFunctionRepo : Bool)
    (backendFns : Except Err (List Function)) (st : CacheState) : CacheState :=
  let st1 := (getPackages backendPkgs (fun _ => true) true st).1
  (getFunctions isFunctionRepo backendFns true st1).1

/-- `cachedRepository.update`: absorb a committed revision by upsert and
recompute the latest markers. -/
def cacheUpdate (st : CacheState) (closed : PackageRevisionData) : CacheState :=
  { st with cachedPackages := some (identifyLatestRevisions
      (updateOrAppend (st.cachedPackages.getD []) { rev := closed, isLatestRevision := false })) }

/-- A value passed in as the `repository.PackageRevision` interface: either
a `*cachedPackageRevision` produced by this cache, or any other
implementation of the interface. -/
inductive PackageRevisionHandle
  | cached (c : CachedPackageRevision)
  | foreign (d : PackageRevisionData)
  deriving DecidableEq, Repr

/-- The unchecked type assertion `old.(*cachedPackageRevision)`: yields the
wrapped backend revision, or fails — a Go panic, modelled as `none`. -/
def unwrapCached : PackageRevisionHandle → Option PackageRevisionData
  | .cached c => some c.rev
  | .foreign _ => none

/-- Calls `cachedRepository` makes into the backing repository. -/
inductive RepoCall
  | updatePackage (d : PackageRevisionData)
  | deletePackageRevision (d : PackageRevisionData)
  deriving DecidableEq, Repr

/-- `cachedRepository.UpdatePackage`: unwrap the argument with the
unchecked assertion (panicking on any foreign implementation, modelled as
`none`), then delegate to the backend.  The trace lists the backend calls
made before the outcome. -/
def cachedRepoUpdatePackage (backend : Except Err Unit) (h : PackageRevisionHandle) :
    Option (List RepoCall × Except Err Unit) :=
  match unwrapCached h with
  | none => none
  | some d => some ([RepoCall.updatePackage d], backend)

/-- `cachedRepository.DeletePackageRevision`: unwrap with the unchecked
assertion (panic on foreign implementations), delegate the delete, and on
success invalidate the whole cached package list. -/
def cachedRepoDeletePackageRevision (backend : Except Err Unit) (st : CacheState)
    (h : PackageRevisionHandle) :
    Option (List RepoCall × CacheState × Except Err Unit) :=
  match unwrapCached h with
  | none => none
  | some d =>
    some ([RepoCall.deletePackageRevision d],
      match backend with
      | .error e => (st, .error e)
      | .ok _ => ({ st with cachedPackages := none }, .ok ()))

/-! ## The CaD engine (`porch/engine/pkg/engine/engine.go`) -/

/-- `v1alpha1.TaskTypeClone`. -/
def TaskTypeClone : String := "clone"

/-- `v1alpha1.TaskTypePatch`. -/
def TaskTypePatch : String := "patch"

/-- `v1alpha1.TaskTypeEval`. -/
def TaskTypeEval : String := "eval"

/-- The used part of `api.PackagePatchTaskSpec`: the changed-path list. -/
structure PatchSpec where
  patches : List String
  deriving DecidableEq, Repr

/-- `api.Task`: a type tag plus at most one variant payload.  The clone and
eval payloads are opaque to the engine's control flow and modelled as
numbers; `none` models a Go `nil` payload pointer. -/
structure Task where
  type : String
  clone : Option Nat
  patch : Option PatchSpec
  eval : Option Nat
  deriving DecidableEq, Repr

/-- `repository.PackageResources`: relative file path to file content.  Go
maps are modelled as association lists. -/
structure PackageResources where
  contents : List (String × String)
  deriving DecidableEq, Repr

/-- The mutation values the engine builds, one constructor per mutation
struct in `engine.go` (collaborator handles omitted). -/
inductive MutationSpec
  | clonePackage (t : Task) (name : String)
  | evalFunction (t : Task)
  | updatePackage (t : Task)
  | renderPackage
  | replaceResources (oldRes newRes : List (String × String))
  deriving DecidableEq, Repr

def lookupRes (k : String) : List (String × String) → Option String
  | [] => none
  | kv :: rest => if kv.1 = k then some kv.2 else lookupRes k rest

/-- `mutationReplaceResources.Apply`: a pure diff of the input snapshot
against the request's new resources.  It emits a patch task listing new or
changed paths (iterating the new map) and then deleted paths (iterating
the old), and returns the new contents verbatim.  The mutation's stored
`oldResources` request field is never read; the diff is taken against the
input snapshot. -/
def replaceResourcesApply (newRes : List (String × String)) (resources : PackageResources) :
    PackageResources × Task :=
  let old := resources.contents
  let changed := (newRes.filter fun kv =>
    match lookupRes kv.1 old with
    | none => true
    | some oldV => kv.2 != oldV).map Prod.fst
  let deleted := (old.filter fun kv => (lookupRes kv.1 newRes).isNone).map Prod.fst
  ({ contents := newRes },
    { type := TaskTypePatch, clone := none, patch := some ⟨changed ++ deleted⟩, eval := none })

/-- Calls the engine makes into external collaborators, in order. -/
inductive EngineEvent
  | openRepository
  | openCreateDraft
  | openUpdateDraft
  | draftUpdateResources (r : PackageResources) (t : Option Task)
  | draftClose
  deriving DecidableEq, Repr

/-- The behavior of one mutation's `Apply`: a new snapshot plus its task
audit record, or an error. -/
abbrev MutationFn := PackageResources → Except Err (PackageResources × Option Task)

/-- The Draft collaborator: `UpdateResources` threads a draft state;
`Close` commits and yields the finalized revision. -/
structure DraftModel (σ ρ : Type) where
  updateResources : σ → PackageResources → Option Task → Except Err σ
  close : σ → Except Err ρ

/-- `updateDraft`: apply the mutations in order, pushing each step's output
snapshot and task into the Draft and carrying the output forward as the
next step's input; abort on the first error without closing; close the
Draft after the last step.  The trace of Draft calls made is returned
alongside the result. -/
def updateDraftGo {σ ρ : Type} (d : DraftModel σ ρ) :
    σ → PackageResources → List MutationFn → List EngineEvent × Except Err ρ
  | s, _, [] => ([EngineEvent.draftClose], d.close s)
  | s, base, m :: rest =>
    match m base with
    | .error e => ([], .error e)
    | .ok (applied, t) =>
      match d.updateResources s applied t with
      | .error e => ([EngineEvent.draftUpdateResources applied t], .error e)
      | .ok s' =>
        let next := updateDraftGo d s' applied rest
        (EngineEvent.draftUpdateResources applied t :: next.1, next.2)

/-- Interpretation of a built mutation: `ReplaceResources` is the pure diff
from the source; clone, eval, update-upstream and render call external
collaborators, whose behavior is the `applyExt` oracle. -/
def applyMutation (applyExt : MutationSpec → MutationFn) : MutationSpec → MutationFn
  | MutationSpec.replaceResources _ newRes => fun r =>
      .ok ((replaceResourcesApply newRes r).1, some (replaceResourcesApply newRes r).2)
  | m => applyExt m

/-- Results of the engine's external calls for one request. -/
structure EngineWorld (σ ρ : Type) where
  openRepo : Except Err Unit
  createDraft : Except Err σ
  openUpdate : Except Err σ
  getResources : Except Err (List (String × String))
  draft : DraftModel σ ρ
  applyExt : MutationSpec → MutationFn

/-- The task-validation switch of `CreatePackageRevision` for one task. -/
def createTaskMutation (packageName : String) (t : Task) : Except Err MutationSpec :=
  if t.type = TaskTypeClone then
    match t.clone with
    | none => .error (.cloneNotSet t.type)
    | some _ => .ok (.clonePackage t packageName)
  else if t.type = TaskTypePatch then
    match t.patch with
    | none => .error (.patchNotSet t.type)
    | some _ => .error .patchNotSupportedOnCreate
  else if t.type = TaskTypeEval then
    match t.eval with
    | none => .error (.evalNotSet t.type)
    | some _ => .ok (.evalFunction t)
  else .error (.taskTypeNotSupported t.type)

/-- The validation loop of `CreatePackageRevision`: one mutation per
declared task in order, stopping at the first rejected task. -/
def buildCreateMutationsList (packageName : String) :
    List Task → Except Err (List MutationSpec)
  | [] => .ok []
  | t :: ts =>
    match createTaskMutation packageName t with
    | .error e => .error e
    | .ok m =>
      match buildCreateMutationsList packageName ts with
      | .error e => .error e
      | .ok ms => .ok (m :: ms)

/-- The mutation list built by `CreatePackageRevision`: each declared task
in order, then an unconditional render. -/
def buildCreateMutations (packageName : String) (tasks : List Task) :
    Except Err (List MutationSpec) :=
  match buildCreateMutationsList packageName tasks with
  | .error e => .error e
  | .ok ms => .ok (ms ++ [MutationSpec.renderPackage])

/-- `cadEngine.CreatePackageRevision`: open the repository, open a create
Draft — before task validation — then validate and build the mutation
list, and drive it from an empty snapshot. -/
def createPackageRevision {σ ρ : Type} (w : EngineWorld σ ρ) (packageName : String)
    (tasks : List Task) : List EngineEvent × Except Err ρ :=
  match w.openRepo with
  | .error e => ([EngineEvent.openRepository], .error e)
  | .ok _ =>
    match w.createDraft with
    | .error e => ([EngineEvent.openRepository, EngineEvent.openCreateDraft], .error e)
    | .ok s =>
      match buildCreateMutations packageName tasks with
      | .error e => ([EngineEvent.openRepository, EngineEvent.openCreateDraft], .error e)
      | .ok muts =>
        let next := updateDraftGo w.draft s { contents := [] }
          (muts.map (applyMutation w.applyExt))
        (EngineEvent.openRepository :: EngineEvent.openCreateDraft :: next.1, next.2)

/-- The per-index validation of `UpdatePackageRevision`: task types must
match pairwise; unchanged tasks (deep equality) are skipped; only a
changed clone task is actionable, and only at index zero. -/
def updateTaskMutation (i : Nat) (oldT newT : Task) : Except Err (Option MutationSpec) :=
  if oldT.type ≠ newT.type then .error .changeTaskTypesNotSupported
  else if oldT = newT then .ok none
  else if newT.type = TaskTypeClone then
    match newT.clone with
    | none => .error (.cloneNotSet newT.type)
    | some _ =>
      if i ≠ 0 then .error .cloneOnlyFirstTask
      else .ok (some (.updatePackage newT))
  else .error (.updatingTaskTypeNotSupported newT.type)

def buildUpdateMutationsFrom (i : Nat) :
    List Task → List Task → Except Err (List MutationSpec)
  | [], [] => .ok []
  | o :: os, n :: ns =>
    match updateTaskMutation i o n with
    | .error e => .error e
    | .ok mo =>
      match buildUpdateMutationsFrom (i + 1) os ns with
      | .error e => .error e
      | .ok rest => .ok (match mo with | some m => m :: rest | none => rest)
  | _, _ => .ok []

/-- The mutation list built by `UpdatePackageRevision`: equal-length task
lists validated pairwise, then an unconditional render. -/
def buildUpdateMutations (oldTasks newTasks : List Task) : Except Err (List MutationSpec) :=
  if oldTasks.length ≠ newTasks.length then .error .addRemoveTasksNotSupported
  else
    match buildUpdateMutationsFrom 0 oldTasks newTasks with
    | .error e => .error e
    | .ok ms => .ok (ms ++ [MutationSpec.renderPackage])

/-- `cadEngine.UpdatePackageRevision`: open the repository, validate and
build the mutation list — before any Draft is opened — then open an update
Draft, read the old revision's resources, and drive the pipeline from
them. -/
def updatePackageRevision {σ ρ : Type} (w : EngineWorld σ ρ) (oldTasks newTasks : List Task) :
    List EngineEvent × Except Err ρ :=
  match w.openRepo with
  | .error e => ([EngineEvent.openRepository], .error e)
  | .ok _ =>
    match buildUpdateMutations oldTasks newTasks with
    | .error e => ([EngineEvent.openRepository], .error e)
    | .ok muts =>
      match w.openUpdate with
      | .error e => ([EngineEvent.openRepository, EngineEvent.openUpdateDraft], .error e)
      | .ok s =>
        match w.getResources with
        | .error e => ([EngineEvent.openRepository, EngineEvent.openUpdateDraft],
            .error (.cannotGetResources e))
        | .ok base =>
          let next := updateDraftGo w.draft s { contents := base }
            (muts.map (applyMutation w.applyExt))
          (EngineEvent.openRepository :: EngineEvent.openUpdateDraft :: next.1, next.2)

/-- `cadEngine.UpdatePackageResources`: open the repository, open an update
Draft, build the single `ReplaceResources` mutation — no render step —
read the old revision's resources, and drive the pipeline from them. -/
def updatePackageResources {σ ρ : Type} (w : EngineWorld σ ρ)
    (oldRes newRes : List (String × String)) : List EngineEvent × Except Err ρ :=
  match w.openRepo with
  | .error e => ([EngineEvent.openRepository], .error e)
  | .ok _ =>
    match w.openUpdate with
    | .error e => ([EngineEvent.openRepository, EngineEvent.openUpdateDraft], .error e)
    | .ok s =>
      match w.getResources with
      | .error e => ([EngineEvent.openRepository, EngineEvent.openUpdateDraft],
          .error (.cannotGetResources e))
      | .ok base =>
        let muts := [MutationSpec.replaceResources oldRes newRes]
        let next := updateDraftGo w.draft s { contents := base }
          (muts.map (applyMutation w.applyExt))
        (EngineEvent.openRepository :: EngineEvent.openUpdateDraft :: next.1, next.2)

/-! ## Reference folds and concrete data used by the theorems -/

/-- The successful prefix of a Draft pipeline: the final draft state and
the update events generated when every apply and update succeeds, or
`none` as soon as one of them fails. -/
def pipelineSteps {σ ρ : Type} (d : DraftModel σ ρ) :
    σ → PackageResources → List MutationFn → Option (σ × List EngineEvent)
  | s, _, [] => some (s, [])
  | s, base, m :: rest =>
    match m base with
    | .error _ => none
    | .ok (applied, t) =>
      match d.updateResources s applied t with
      | .error _ => none
      | .ok s' =>
        match pipelineSteps d s' applied rest with
        | none => none
        | some (sf, evs) => some (sf, EngineEvent.draftUpdateResources applied t :: evs)

/-- Concrete revisions used to evaluate the model at specific inputs. -/
def revA : CachedPackageRevision :=
  ⟨⟨⟨"pkg", "v1.0.0"⟩, Lifecycle.published, "pkg-v1"⟩, false⟩

/-- A draft revision of the same package with a higher version. -/
def revB : CachedPackageRevision :=
  ⟨⟨⟨"pkg", "v1.1.0"⟩, Lifecycle.draft, "pkg-v1.1"⟩, false⟩

/-- A published revision of the same package with an invalid version. -/
def revC : CachedPackageRevision :=
  ⟨⟨⟨"pkg", "bogus"⟩, Lifecycle.published, "pkg-bogus"⟩, false⟩

/-- A published revision of another package. -/
def revD : CachedPackageRevision :=
  ⟨⟨⟨"other", "v2.0.0"⟩, Lifecycle.published, "other-v2"⟩, false⟩

/-- A revision carrying the same stable object name as `revA` but
different content everywhere else. -/
def revA2 : CachedPackageRevision :=
  ⟨⟨⟨"pkg", "v9.0.0"⟩, Lifecycle.proposed, "pkg-v1"⟩, true⟩

/-- A trivial draft collaborator over numeric states, used for concrete
pipeline runs. -/
def witDraft : DraftModel Nat Nat :=
  ⟨fun s _ _ => Except.ok (s + 1), fun s => Except.ok s⟩

/-- A mutation whose apply succeeds and returns its input unchanged. -/
def witMutOk : MutationFn := fun r => Except.ok (r, none)

/-- A mutation whose apply fails. -/
def witMutFail : MutationFn := fun _ => Except.error (Err.backend 7)

/-- A concrete package name. -/
def witPkgName : String := "pkg"

/-- A patch task with its payload set. -/
def patchTask : Task := ⟨TaskTypePatch, none, some ⟨[]⟩, none⟩

/-- A clone task with its payload set. -/
def cloneTask : Task := ⟨TaskTypeClone, some 1, none, none⟩

/-- An eval task with its payload set. -/
def evalTask : Task := ⟨TaskTypeEval, none, none, some 2⟩

/-- A task of an unrecognized kind. -/
def weirdTask : Task := ⟨"weird", none, none, none⟩

/-- An engine world whose external calls all succeed. -/
def witWorld : EngineWorld Nat Nat :=
  ⟨Except.ok (), Except.ok 0, Except.ok 0, Except.ok [], witDraft, fun _ => witMutOk⟩

/-- An engine world whose old revision holds resources `a=1, b=2`. -/
def witWorld2 : EngineWorld Nat Nat :=
  ⟨Except.ok (), Except.ok 0, Except.ok 0, Except.ok [("a", "1"), ("b", "2")],
    witDraft, fun _ => witMutOk⟩

/-- Per-entry invariant of the `latest` map after the first `n` elements
of `l` have been scanned: the entry points (by index) at a published
revision of its package seen so far whose revision string is valid
semver, strictly above every earlier published revision of the package
and not below any published revision of the package seen so far. -/
abbrev EntryInvAt (l : List CachedPackageRevision) (n : Nat) (e : LatestEntry) : Prop :=
  e.2.1 < n ∧
  ∃ cj, l[e.2.1]? = some cj ∧
    cj.rev.key.Package = e.1 ∧ cj.rev.key.Revision = e.2.2 ∧
    cj.rev.lifecycle = Lifecycle.published ∧
    Semver.IsValid e.2.2 = true ∧
    ∀ (k : Nat) (ck : CachedPackageRevision), k < n → l[k]? = some ck →
      ck.rev.key.Package = e.1 → ck.rev.lifecycle = Lifecycle.published →
      (k < e.2.1 → Semver.CompareO e.2.2 ck.rev.key.Revision = .gt) ∧
      Semver.CompareO e.2.2 ck.rev.key.Revision ≠ .lt

/-- Invariant of the whole `latest` map: unique keys, every entry sound. -/
abbrev MapInvAt (l : List CachedPackageRevision) (n : Nat) (m : List LatestEntry) : Prop :=
  (m.map Prod.fst).Nodup ∧ ∀ e ∈ m, EntryInvAt l n e

/-- Coverage invariant: every published revision with a valid semver among
the first `n` elements has an entry for its package in the map. -/
abbrev CovInvAt (l : List CachedPackageRevision) (n : Nat) (m : List LatestEntry) : Prop :=
  ∀ (k : Nat) (ck : CachedPackageRevision), k < n → l[k]? = some ck →
    ck.rev.lifecycle = Lifecycle.published →
    Semver.IsValid ck.rev.key.Revision = true →
    ∃ e ∈ m, e.1 = ck.rev.key.Package

/-! ## Comparator laws -/

namespace Semver

open Batteries in
instance : Batteries.OrientedCmp cmpPreId where
  symm a b := by
    cases a <;> cases b <;> simp only [cmpPreId] <;>
      first
        | rfl
        | exact Batteries.OrientedCmp.symm ..

open Batteries in
instance : Batteries.TransCmp cmpPreId where
  le_trans {a b c} h1 h2 := by
    cases a <;> cases b <;> cases c <;> simp only [cmpPreId] at h1 h2 ⊢ <;>
      first
        | exact Batteries.TransCmp.le_trans h1 h2
        | exact absurd rfl h1
        | exact absurd rfl h2
        | decide

theorem cmpPreIds_symm : ∀ x y, (cmpPreIds x y).swap = cmpPreIds y x
  | [], [] => rfl
  | [], _ :: _ => rfl
  | _ :: _, [] => rfl
  | a :: as, b :: bs => by
    simp only [cmpPreIds, Ordering.swap_then, cmpPreIds_symm as bs,
      Batteries.OrientedCmp.symm a b]

instance : Batteries.OrientedCmp cmpPreIds := ⟨cmpPreIds_symm⟩

theorem cmpPreIds_le_trans :
    ∀ {x y z}, cmpPreIds x y ≠ .gt → cmpPreIds y z ≠ .gt → cmpPreIds x z ≠ .gt
  | [], _, [], _, _ => by simp [cmpPreIds]
  | [], _, _ :: _, _, _ => by simp [cmpPreIds]
  | a :: as, [], _, h1, _ => by simp [cmpPreIds] at h1
  | a :: as, b :: bs, [], _, h2 => by simp [cmpPreIds] at h2
  | a :: as, b :: bs, c :: cs, h1, h2 => by
    simp only [cmpPreIds, ne_eq, Ordering.then_eq_gt, not_or, not_and] at h1 h2 ⊢
    refine ⟨Batteries.TransCmp.le_trans h1.1 h2.1, fun e1 e2 => ?_⟩
    match hab : cmpPreId a b with
    | .gt => exact h1.1 hab
    | .eq =>
      have htail : cmpPreIds as cs ≠ .gt :=
        cmpPreIds_le_trans (h1.2 hab)
          (h2.2 (Batteries.TransCmp.cmp_congr_left hab ▸ e1))
      exact htail e2
    | .lt =>
      exact h2.1 ((Batteries.OrientedCmp.cmp_eq_gt).2
        (Batteries.TransCmp.cmp_congr_left e1 ▸ hab))

instance : Batteries.TransCmp cmpPreIds := ⟨cmpPreIds_le_trans⟩

theorem cmpPrerelease_symm : ∀ x y, (cmpPrerelease x y).swap = cmpPrerelease y x
  | [], [] => rfl
  | [], _ :: _ => rfl
  | _ :: _, [] => rfl
  | a :: as, b :: bs => cmpPreIds_symm (a :: as) (b :: bs)

instance : Batteries.OrientedCmp cmpPrerelease := ⟨cmpPrerelease_symm⟩

theorem cmpPrerelease_le_trans :
    ∀ {x y z}, cmpPrerelease x y ≠ .gt → cmpPrerelease y z ≠ .gt →
      cmpPrerelease x z ≠ .gt
  | [], [], [], _, _ => by simp [cmpPrerelease]
  | [], [], _ :: _, _, h2 => h2
  | [], _ :: _, _, h1, _ => by simp [cmpPrerelease] at h1
  | _ :: _, [], [], _, _ => by simp [cmpPrerelease]
  | _ :: _, [], _ :: _, _, h2 => by simp [cmpPrerelease] at h2
  | _ :: _, _ :: _, [], _, _ => by simp [cmpPrerelease]
  | a :: as, b :: bs, c :: cs, h1, h2 => cmpPreIds_le_trans h1 h2

instance : Batteries.TransCmp cmpPrerelease := ⟨cmpPrerelease_le_trans⟩

theorem cmpSemVer_eq_lex :
    cmpSemVer = compareLex (compareOn SemVer.major) (compareLex (compareOn SemVer.minor)
      (compareLex (compareOn SemVer.patch)
        (Ordering.byKey SemVer.prerelease cmpPrerelease))) := rfl

instance : Batteries.TransCmp cmpSemVer := cmpSemVer_eq_lex ▸ inferInstance

theorem cmpSemVer_symm (a b : SemVer) : (cmpSemVer a b).swap = cmpSemVer b a :=
  Batteries.OrientedCmp.symm a b

theorem cmpSemVer_le_trans {a b c : SemVer} (h1 : cmpSemVer a b ≠ .gt)
    (h2 : cmpSemVer b c ≠ .gt) : cmpSemVer a c ≠ .gt :=
  Batteries.TransCmp.le_trans h1 h2

theorem CompareO_symm (a b : String) : (CompareO a b).swap = CompareO b a := by
  unfold CompareO
  cases ha : parse a <;> cases hb : parse b <;>
    first
      | rfl
      | exact cmpSemVer_symm ..

instance : Batteries.OrientedCmp CompareO := ⟨CompareO_symm⟩

theorem CompareO_le_trans {a b c : String} (h1 : CompareO a b ≠ .gt)
    (h2 : CompareO b c ≠ .gt) : CompareO a c ≠ .gt := by
  unfold CompareO at h1 h2 ⊢
  cases ha : parse a <;> cases hb : parse b <;> cases hc : parse c <;>
    simp only [ha, hb, hc] at h1 h2 ⊢ <;>
    first
      | exact cmpSemVer_le_trans h1 h2
      | exact absurd rfl h1
      | exact absurd rfl h2
      | decide

instance : Batteries.TransCmp CompareO := ⟨CompareO_le_trans⟩

theorem Compare_pos_iff {v w : String} : 0 < Compare v w ↔ CompareO v w = .gt := by
  unfold Compare
  cases h : CompareO v w <;> simp

theorem Compare_nonneg_iff {v w : String} : 0 ≤ Compare v w ↔ CompareO v w ≠ .lt := by
  unfold Compare
  cases h : CompareO v w <;> simp

theorem CompareO_gt_of_valid_invalid {a b : String} (ha : IsValid a = true)
    (hb : IsValid b = false) : CompareO a b = .gt := by
  unfold IsValid at ha hb
  unfold CompareO
  cases hpa : parse a <;> cases hpb : parse b <;> simp_all

theorem isValid_of_CompareO_gt {a b : String} (hb : IsValid b = true)
    (h : CompareO a b = .gt) : IsValid a = true := by
  unfold IsValid at hb ⊢
  unfold CompareO at h
  cases hpa : parse a <;> cases hpb : parse b <;> simp_all

end Semver

theorem pkgRevCmp_eq_lex :
    pkgRevCmp = compareLex (Ordering.byKey (fun c => c.rev.key.Package) compare)
      (compareLex (Ordering.byKey (fun c => c.rev.key.Revision) compare)
        (compareLex (Ordering.byKey (fun c => c.rev.lifecycle.toStr) compare)
          (Ordering.byKey (fun c => c.rev.kubeObjectName) compare))) := rfl

instance : Batteries.TransCmp pkgRevCmp := pkgRevCmp_eq_lex ▸ inferInstance

/-! ## Latest-map association-list lemmas -/

theorem lookupLatest_none_not_mem {p : String} :
    ∀ {m : List LatestEntry}, lookupLatest p m = none → ∀ e ∈ m, e.1 ≠ p
  | [], _, e, he => absurd he (List.not_mem_nil e)
  | e0 :: rest, h, e, he => by
    by_cases hk : e0.1 = p
    · rw [lookupLatest, if_pos hk] at h
      cases h
    · rw [lookupLatest, if_neg hk] at h
      rcases List.mem_cons.1 he with rfl | hrest
      · exact hk
      · exact lookupLatest_none_not_mem h e hrest

theorem lookupLatest_some_mem {p : String} {v : Nat × String} :
    ∀ {m : List LatestEntry}, lookupLatest p m = some v → (p, v) ∈ m
  | [], h => by cases h
  | e0 :: rest, h => by
    by_cases hk : e0.1 = p
    · rw [lookupLatest, if_pos hk] at h
      simp only [Option.some.injEq] at h
      subst h
      have he : (p, e0.2) = e0 := by
        rw [← hk]
      rw [he]
      exact List.mem_cons_self e0 rest
    · rw [lookupLatest, if_neg hk] at h
      exact List.mem_cons_of_mem e0 (lookupLatest_some_mem h)

theorem insertLatest_mem_iff {p : String} {i : Nat} {s : String} :
    ∀ {m : List LatestEntry}, (m.map Prod.fst).Nodup →
      ∀ {e : LatestEntry}, (e ∈ insertLatest p i s m ↔
        e = (p, i, s) ∨ (e ∈ m ∧ e.1 ≠ p))
  | [], _, e => by simp [insertLatest]
  | e0 :: rest, hnd, e => by
    simp only [List.map_cons, List.nodup_cons] at hnd
    by_cases hk : e0.1 = p
    · rw [insertLatest, if_pos hk]
      simp only [List.mem_cons]
      constructor
      · rintro (rfl | hrest)
        · exact Or.inl rfl
        · refine Or.inr ⟨Or.inr hrest, fun hep => ?_⟩
          have : e0.1 ∈ rest.map Prod.fst := by
            rw [hk, ← hep]
            exact List.mem_map_of_mem Prod.fst hrest
          exact hnd.1 this
      · rintro (rfl | ⟨rfl | hrest, hep⟩)
        · exact Or.inl rfl
        · exact absurd hk hep
        · exact Or.inr hrest
    · rw [insertLatest, if_neg hk]
      simp only [List.mem_cons]
      rw [insertLatest_mem_iff hnd.2]
      constructor
      · rintro (rfl | rfl | ⟨hm, hne⟩)
        · exact Or.inr ⟨Or.inl rfl, hk⟩
        · exact Or.inl rfl
        · exact Or.inr ⟨Or.inr hm, hne⟩
      · rintro (rfl | ⟨rfl | hm, hne⟩)
        · exact Or.inr (Or.inl rfl)
        · exact Or.inl rfl
        · exact Or.inr (Or.inr ⟨hm, hne⟩)

theorem insertLatest_keys_nodup {p : String} {i : Nat} {s : String} :
    ∀ {m : List LatestEntry}, (m.map Prod.fst).Nodup →
      ((insertLatest p i s m).map Prod.fst).Nodup
  | [], _ => by simp [insertLatest]
  | e0 :: rest, hnd => by
    simp only [List.map_cons, List.nodup_cons] at hnd
    by_cases hk : e0.1 = p
    · rw [insertLatest, if_pos hk]
      simp only [List.map_cons, List.nodup_cons]
      exact ⟨hk ▸ hnd.1, hnd.2⟩
    · rw [insertLatest, if_neg hk]
      simp only [List.map_cons, List.nodup_cons]
      refine ⟨fun hmem => ?_, insertLatest_keys_nodup hnd.2⟩
      rcases List.mem_map.1 hmem with ⟨e, he, hfst⟩
      rcases (insertLatest_mem_iff hnd.2).1 he with rfl | ⟨hm, _⟩
      · exact hk (hfst ▸ rfl)
      · exact hnd.1 (hfst ▸ List.mem_map_of_mem Prod.fst hm)

theorem keys_nodup_mem_eq :
    ∀ {m : List LatestEntry}, (m.map Prod.fst).Nodup →
      ∀ {e e' : LatestEntry}, e ∈ m → e' ∈ m → e.1 = e'.1 → e = e'
  | [], _, e, _, he, _, _ => absurd he (List.not_mem_nil e)
  | e0 :: rest, hnd, e, e', he, he', hk => by
    simp only [List.map_cons, List.nodup_cons] at hnd
    rcases List.mem_cons.1 he with rfl | hrest <;>
      rcases List.mem_cons.1 he' with h' | hrest'
    · exact h' ▸ rfl
    · exact absurd (hk ▸ List.mem_map_of_mem Prod.fst hrest') hnd.1
    · subst h'
      exact absurd (hk ▸ List.mem_map_of_mem Prod.fst hrest) hnd.1
    · exact keys_nodup_mem_eq hnd.2 hrest hrest' hk

/-! ## Latest-revision step invariant -/

theorem latestStep_inv {l : List CachedPackageRevision} {n : Nat} {m : List LatestEntry}
    {c : CachedPackageRevision} (hmi : MapInvAt l n m) (hcov : CovInvAt l n m)
    (hc : l[n]? = some c) :
    MapInvAt l (n + 1) (latestStep m n c) ∧ CovInvAt l (n + 1) (latestStep m n c) := by
  obtain ⟨hnd, hent⟩ := hmi
  have hgetn : ∀ {ck : CachedPackageRevision}, l[n]? = some ck → ck = c :=
    fun {ck} h => (Option.some.inj (hc.symm.trans h)).symm
  -- an entry of the old map stays sound at n+1 when the new element cannot
  -- affect it: either the packages differ, or the entry is not below it
  have hkeep : ∀ e, EntryInvAt l n e →
      (c.rev.lifecycle = Lifecycle.published → c.rev.key.Package = e.1 →
        Semver.CompareO e.2.2 c.rev.key.Revision ≠ .lt) →
      EntryInvAt l (n + 1) e := by
    rintro e ⟨hlt, cj, hcj, h1, h2, h3, h4, hall⟩ hcase
    refine ⟨Nat.lt_succ_of_lt hlt, cj, hcj, h1, h2, h3, h4, ?_⟩
    intro k ck hk hck hpkg hpubk
    rcases Nat.lt_succ_iff_lt_or_eq.1 hk with hk' | rfl
    · exact hall k ck hk' hck hpkg hpubk
    · have hce : ck = c := hgetn hck
      subst hce
      refine ⟨fun hkn => absurd hkn (by omega), ?_⟩
      exact hcase hpubk hpkg
  unfold latestStep
  by_cases hpub : c.rev.lifecycle = Lifecycle.published
  · rw [if_pos hpub]
    split
    rotate_left 1
    next hlk =>
      -- no entry for the package yet
      have hkeysne := lookupLatest_none_not_mem hlk
      by_cases hval : Semver.IsValid c.rev.key.Revision
      · rw [if_pos hval]
        constructor
        · refine ⟨insertLatest_keys_nodup hnd, ?_⟩
          intro e he
          rcases (insertLatest_mem_iff hnd).1 he with rfl | ⟨hm, hne⟩
          · -- the freshly seeded entry
            refine ⟨Nat.lt_succ_self n, c, hc, rfl, rfl, hpub, hval, ?_⟩
            intro k ck hk hck hpkg hpubk
            rcases Nat.lt_succ_iff_lt_or_eq.1 hk with hk' | rfl
            · -- every earlier published revision of this package is invalid
              have hinv : Semver.IsValid ck.rev.key.Revision = false := by
                by_contra hvv
                have hvv' : Semver.IsValid ck.rev.key.Revision = true :=
                  Bool.not_eq_false _ ▸ hvv
                rcases hcov k ck hk' hck hpubk hvv' with ⟨e', he', hkey⟩
                exact hkeysne e' he' (hkey.trans hpkg)
              have hgt := Semver.CompareO_gt_of_valid_invalid hval hinv
              exact ⟨fun _ => hgt, by simp [hgt]⟩
            · have hce : ck = c := hgetn hck
              subst hce
              have hrefl : Semver.CompareO ck.rev.key.Revision ck.rev.key.Revision = .eq :=
                Batteries.OrientedCmp.cmp_refl
              exact ⟨fun hh => absurd hh (Nat.lt_irrefl _), by simp [hrefl]⟩
          · exact hkeep e (hent e hm) (fun _ hpkg => absurd hpkg.symm hne)
        · intro k ck hk hck hp hv
          rcases Nat.lt_succ_iff_lt_or_eq.1 hk with hk' | rfl
          · rcases hcov k ck hk' hck hp hv with ⟨e, he, hkey⟩
            exact ⟨e, (insertLatest_mem_iff hnd).2 (Or.inr ⟨he, hkeysne e he⟩), hkey⟩
          · have hce : ck = c := hgetn hck
            subst hce
            exact ⟨_, (insertLatest_mem_iff hnd).2 (Or.inl rfl), rfl⟩
      · rw [if_neg hval]
        constructor
        · refine ⟨hnd, fun e he => hkeep e (hent e he) ?_⟩
          intro _ hpkg
          exact absurd hpkg.symm (hkeysne e he)
        · intro k ck hk hck hp hv
          rcases Nat.lt_succ_iff_lt_or_eq.1 hk with hk' | rfl
          · exact hcov k ck hk' hck hp hv
          · have hce : ck = c := hgetn hck
            subst hce
            exact absurd hv hval
    next prev hlk =>
      -- the package already has a candidate
      have hmem0 := lookupLatest_some_mem hlk
      obtain ⟨hj0, cj0, hcj0, hpkg0, hrev0, hpub0, hval0, hall0⟩ := hent _ hmem0
      by_cases hcmp : 0 < Semver.Compare c.rev.key.Revision prev.2
      · rw [if_pos hcmp]
        have hgt : Semver.CompareO c.rev.key.Revision prev.2 = .gt :=
          Semver.Compare_pos_iff.1 hcmp
        have hvalc : Semver.IsValid c.rev.key.Revision = true :=
          Semver.isValid_of_CompareO_gt hval0 hgt
        constructor
        · refine ⟨insertLatest_keys_nodup hnd, ?_⟩
          intro e he
          rcases (insertLatest_mem_iff hnd).1 he with rfl | ⟨hm, hne⟩
          · -- the replacing entry
            refine ⟨Nat.lt_succ_self n, c, hc, rfl, rfl, hpub, hvalc, ?_⟩
            intro k ck hk hck hpkg hpubk
            rcases Nat.lt_succ_iff_lt_or_eq.1 hk with hk' | rfl
            · have h0 := hall0 k ck hk' hck hpkg hpubk
              have hne_lt : Semver.CompareO c.rev.key.Revision ck.rev.key.Revision ≠ .lt :=
                Batteries.TransCmp.ge_trans (by simp [hgt]) h0.2
              have hgt_all :
                  Semver.CompareO c.rev.key.Revision ck.rev.key.Revision = .gt := by
                have h1 : Semver.CompareO ck.rev.key.Revision prev.2 ≠ .gt :=
                  (Batteries.OrientedCmp.cmp_ne_gt).2 h0.2
                have h2 : Semver.CompareO prev.2 c.rev.key.Revision = .lt :=
                  (Batteries.OrientedCmp.cmp_eq_gt).1 hgt
                exact (Batteries.OrientedCmp.cmp_eq_gt).2
                  (Batteries.TransCmp.le_lt_trans h1 h2)
              exact ⟨fun _ => hgt_all, hne_lt⟩
            · have hce : ck = c := hgetn hck
              subst hce
              have hrefl : Semver.CompareO ck.rev.key.Revision ck.rev.key.Revision = .eq :=
                Batteries.OrientedCmp.cmp_refl
              exact ⟨fun hh => absurd hh (Nat.lt_irrefl _), by simp [hrefl]⟩
          · exact hkeep e (hent e hm) (fun _ hpkg => absurd hpkg.symm hne)
        · intro k ck hk hck hp hv
          rcases Nat.lt_succ_iff_lt_or_eq.1 hk with hk' | rfl
          · rcases hcov k ck hk' hck hp hv with ⟨e, he, hkey⟩
            by_cases hkeyp : e.1 = c.rev.key.Package
            · exact ⟨_, (insertLatest_mem_iff hnd).2 (Or.inl rfl), hkeyp ▸ hkey⟩
            · exact ⟨e, (insertLatest_mem_iff hnd).2 (Or.inr ⟨he, hkeyp⟩), hkey⟩
          · have hce : ck = c := hgetn hck
            subst hce
            exact ⟨_, (insertLatest_mem_iff hnd).2 (Or.inl rfl), rfl⟩
      · rw [if_neg hcmp]
        have hnotgt : Semver.CompareO c.rev.key.Revision prev.2 ≠ .gt :=
          fun hg => hcmp (Semver.Compare_pos_iff.2 hg)
        constructor
        · refine ⟨hnd, fun e he => hkeep e (hent e he) ?_⟩
          intro _ hpkg
          -- the only entry with this key is (pkg, j0, s0)
          have he0 : e = (c.rev.key.Package, prev) :=
            keys_nodup_mem_eq hnd he hmem0 hpkg.symm
          subst he0
          exact (Batteries.OrientedCmp.cmp_ne_gt).1 hnotgt
        · intro k ck hk hck hp hv
          rcases Nat.lt_succ_iff_lt_or_eq.1 hk with hk' | rfl
          · exact hcov k ck hk' hck hp hv
          · have hce : ck = c := hgetn hck
            subst hce
            exact ⟨_, hmem0, rfl⟩
  · rw [if_neg hpub]
    constructor
    · refine ⟨hnd, fun e he => hkeep e (hent e he) ?_⟩
      intro hp _
      exact absurd hp hpub
    · intro k ck hk hck hp hv
      rcases Nat.lt_succ_iff_lt_or_eq.1 hk with hk' | rfl
      · exact hcov k ck hk' hck hp hv
      · have hce : ck = c := hgetn hck
        subst hce
        exact absurd hp hpub

theorem latestMapFrom_inv {l : List CachedPackageRevision} :
    ∀ (rest : List CachedPackageRevision) (n : Nat) (m : List LatestEntry),
      MapInvAt l n m → CovInvAt l n m → (∀ j : Nat, rest[j]? = l[n + j]?) →
      n + rest.length = l.length →
      MapInvAt l l.length (latestMapFrom n m rest) ∧
      CovInvAt l l.length (latestMapFrom n m rest)
  | [], n, m, hmi, hcov, _, hlen => by
    have hn : n = l.length := by simpa using hlen
    subst hn
    exact ⟨hmi, hcov⟩
  | c :: rest, n, m, hmi, hcov, hrest, hlen => by
    have hc : l[n]? = some c := by
      have h0 := hrest 0
      simpa using h0.symm
    rcases latestStep_inv hmi hcov hc with ⟨hmi', hcov'⟩
    rw [latestMapFrom]
    refine latestMapFrom_inv rest (n + 1) (latestStep m n c) hmi' hcov' ?_ ?_
    · intro j
      have h := hrest (j + 1)
      rw [List.getElem?_cons_succ] at h
      have harith : n + (j + 1) = n + 1 + j := by omega
      rw [harith] at h
      exact h
    · simp only [List.length_cons] at hlen
      omega

theorem applyLatestFlags_getElem (m : List LatestEntry) :
    ∀ (l : List CachedPackageRevision) (i j : Nat),
      (applyLatestFlags m i l)[j]? =
        (l[j]?).map fun c =>
          { c with isLatestRevision := m.any fun e => e.2.1 == i + j }
  | [], i, j => by simp [applyLatestFlags]
  | c :: t, i, j => by
    cases j with
    | zero => simp [applyLatestFlags]
    | succ j' =>
      simp only [applyLatestFlags, List.getElem?_cons_succ]
      rw [applyLatestFlags_getElem m t (i + 1) j']
      have harith : i + 1 + j' = i + (j' + 1) := by omega
      rw [harith]

theorem identifyLatest_getElem (l : List CachedPackageRevision) (j : Nat) :
    (identifyLatestRevisions l)[j]? =
      (l[j]?).map fun c =>
        { c with isLatestRevision := (latestMapFrom 0 [] l).any fun e => e.2.1 == j } := by
  unfold identifyLatestRevisions
  rw [applyLatestFlags_getElem]
  simp

theorem latest_flag_iff {l : List CachedPackageRevision} {j : Nat}
    {cj : CachedPackageRevision} (h : (identifyLatestRevisions l)[j]? = some cj) :
    ∃ c0, l[j]? = some c0 ∧ cj.rev = c0.rev ∧
      (cj.isLatestRevision = true ↔ ∃ e ∈ latestMapFrom 0 [] l, e.2.1 = j) := by
  rw [identifyLatest_getElem] at h
  rcases hl : l[j]? with _ | c0 <;> rw [hl] at h
  · cases h
  · simp only [Option.map_some', Option.some.injEq] at h
    subst h
    refine ⟨c0, rfl, rfl, ?_⟩
    simp [List.any_eq_true]

/-! ## Upsert lemmas -/

theorem updateOrAppend_filter_eq (l : List CachedPackageRevision) (a : CachedPackageRevision)
    (hnd : (l.map fun c => c.rev.kubeObjectName).Nodup) :
    (updateOrAppend l a).filter
      (fun c => c.rev.kubeObjectName == a.rev.kubeObjectName) = [a] := by
  induction l with
  | nil => simp [updateOrAppend]
  | cons c rest ih =>
    simp only [List.map_cons, List.nodup_cons] at hnd
    by_cases h : c.rev.kubeObjectName = a.rev.kubeObjectName
    · simp only [updateOrAppend, if_pos h, List.filter_cons, beq_self_eq_true, if_pos]
      have hrest : rest.filter
          (fun c => c.rev.kubeObjectName == a.rev.kubeObjectName) = [] := by
        rw [List.filter_eq_nil_iff]
        intro x hx hbeq
        exact hnd.1 (h ▸ (eq_of_beq hbeq) ▸ List.mem_map_of_mem _ hx)
      simp [hrest]
    · simp only [updateOrAppend, if_neg h, List.filter_cons]
      rw [if_neg (by simpa using h)]
      exact ih hnd.2

theorem updateOrAppend_filter_ne (l : List CachedPackageRevision) (a : CachedPackageRevision)
    (x : String) (hx : a.rev.kubeObjectName = x) :
    (updateOrAppend l a).filter (fun c => c.rev.kubeObjectName != x) =
      l.filter (fun c => c.rev.kubeObjectName != x) := by
  induction l with
  | nil => simp [updateOrAppend, hx]
  | cons c rest ih =>
    by_cases h : c.rev.kubeObjectName = a.rev.kubeObjectName
    · have hcx : c.rev.kubeObjectName = x := h.trans hx
      simp only [updateOrAppend, if_pos h, List.filter_cons]
      rw [if_neg (by simp [hx]), if_neg (by simp [hcx])]
    · simp only [updateOrAppend, if_neg h, List.filter_cons, ih]

theorem mem_updateOrAppend_keys {l : List CachedPackageRevision}
    {a : CachedPackageRevision} {x : String}
    (hm : x ∈ (updateOrAppend l a).map fun c => c.rev.kubeObjectName) :
    (x ∈ l.map fun c => c.rev.kubeObjectName) ∨ x = a.rev.kubeObjectName := by
  induction l with
  | nil => simpa [updateOrAppend] using hm
  | cons c rest ih =>
    by_cases h : c.rev.kubeObjectName = a.rev.kubeObjectName
    · simp only [updateOrAppend, if_pos h, List.map_cons, List.mem_cons] at hm ⊢
      rcases hm with h1 | h2
      · exact Or.inr h1
      · exact Or.inl (Or.inr h2)
    · simp only [updateOrAppend, if_neg h, List.map_cons, List.mem_cons] at hm ⊢
      rcases hm with h1 | h2
      · exact Or.inl (Or.inl h1)
      · rcases ih h2 with h3 | h4
        · exact Or.inl (Or.inr h3)
        · exact Or.inr h4

theorem updateOrAppend_keys_nodup (l : List CachedPackageRevision)
    (a : CachedPackageRevision) (hnd : (l.map fun c => c.rev.kubeObjectName).Nodup) :
    ((updateOrAppend l a).map fun c => c.rev.kubeObjectName).Nodup := by
  induction l with
  | nil => simp [updateOrAppend]
  | cons c rest ih =>
    simp only [List.map_cons, List.nodup_cons] at hnd
    by_cases h : c.rev.kubeObjectName = a.rev.kubeObjectName
    · simp only [updateOrAppend, if_pos h, List.map_cons, List.nodup_cons]
      exact ⟨h ▸ hnd.1, hnd.2⟩
    · simp only [updateOrAppend, if_neg h, List.map_cons, List.nodup_cons]
      refine ⟨fun hmem => ?_, ih hnd.2⟩
      rcases mem_updateOrAppend_keys hmem with h1 | h2
      · exact hnd.1 h1
      · exact h h2

/-! ## Claim theorems -/

/-- C9: on a cached-revision list with at most one entry per stable object
identifier, upserting a revision with a given KubeObjectName twice leaves
exactly one entry for that identifier — the second call's object in its
entirety, with no field merge — and every entry with another identifier
unchanged. -/
theorem updateOrAppend_upsert_twice (l : List CachedPackageRevision)
    (a b : CachedPackageRevision) (hab : a.rev.kubeObjectName = b.rev.kubeObjectName)
    (hnd : (l.map fun c => c.rev.kubeObjectName).Nodup) :
    (updateOrAppend (updateOrAppend l a) b).filter
        (fun c => c.rev.kubeObjectName == b.rev.kubeObjectName) = [b] ∧
    (updateOrAppend (updateOrAppend l a) b).filter
        (fun c => c.rev.kubeObjectName != b.rev.kubeObjectName) =
      l.filter (fun c => c.rev.kubeObjectName != b.rev.kubeObjectName) := by
  have hnd' := updateOrAppend_keys_nodup l a hnd
  refine ⟨updateOrAppend_filter_eq _ b hnd', ?_⟩
  rw [updateOrAppend_filter_ne _ b _ rfl, updateOrAppend_filter_ne l a _ hab]

/-- C9 witness: a concrete double upsert of revisions sharing the stable
name of `revA`, over a one-element list with another name. -/
theorem updateOrAppend_upsert_twice_witness :
    revA.rev.kubeObjectName = revA2.rev.kubeObjectName ∧
    ([revD].map fun c => c.rev.kubeObjectName).Nodup ∧
    ((updateOrAppend (updateOrAppend [revD] revA) revA2).filter
        (fun c => c.rev.kubeObjectName == revA2.rev.kubeObjectName) = [revA2] ∧
     (updateOrAppend (updateOrAppend [revD] revA) revA2).filter
        (fun c => c.rev.kubeObjectName != revA2.rev.kubeObjectName) =
      [revD].filter (fun c => c.rev.kubeObjectName != revA2.rev.kubeObjectName)) :=
  ⟨by decide, by decide,
    updateOrAppend_upsert_twice [revD] revA revA2 (by decide) (by decide)⟩

/-- C10: `cachedRepository.UpdatePackage` and
`cachedRepository.DeletePackageRevision` unwrap their old-revision
argument with the unchecked type assertion `old.(*cachedPackageRevision)`:
for any other implementation of the `PackageRevision` interface the
assertion fails — a panic, modelled as `none` — before any backend call is
made, while a cache-produced argument is unwrapped and handed to the
backend. -/
theorem cachedRepo_foreign_handle_asserts (backend : Except Err Unit) (st : CacheState)
    (d : PackageRevisionData) (c : CachedPackageRevision) :
    cachedRepoUpdatePackage backend (PackageRevisionHandle.foreign d) = none ∧
    cachedRepoDeletePackageRevision backend st (PackageRevisionHandle.foreign d) = none ∧
    cachedRepoUpdatePackage backend (PackageRevisionHandle.cached c) =
      some ([RepoCall.updatePackage c.rev], backend) ∧
    ∃ out, cachedRepoDeletePackageRevision backend st (PackageRevisionHandle.cached c) =
      some ([RepoCall.deletePackageRevision c.rev], out) :=
  ⟨rfl, rfl, rfl, ⟨_, rfl⟩⟩

/-! ## Cache refresh lemmas -/

theorem getPackages_fst_force_error (e : Err) (f : CachedPackageRevision → Bool)
    (st : CacheState) :
    (getPackages (Except.error e) f true st).1 =
      { st with cachedPackages := none, refreshError := some e } := by
  unfold getPackages
  rcases hre : st.refreshError with _ | e0 <;> simp [hre]

theorem getFunctions_fst_preserves (isFR : Bool) (bf : Except Err (List Function))
    (force : Bool) (st : CacheState) :
    (getFunctions isFR bf force st).1.cachedPackages = st.cachedPackages ∧
    (getFunctions isFR bf force st).1.refreshError = st.refreshError := by
  unfold getFunctions
  cases force <;> rcases hc : st.cachedFunctions with _ | fs <;>
    cases isFR <;> cases bf <;> simp [hc]

/-- C1 counterexample: a loaded cache of one revision plus a failing
backend list call; after the forced background refresh the
`cachedPackages` field is `nil`, not the prior list. -/
theorem pollOnce_failure_cex :
    (pollOnce (Except.error (Err.backend 0)) false (Except.ok [])
        ⟨some [revA], none, none⟩).cachedPackages = none ∧
    (pollOnce (Except.error (Err.backend 0)) false (Except.ok [])
        ⟨some [revA], none, none⟩).cachedPackages ≠ some [revA] :=
  ⟨rfl, by decide⟩

/-- C1 amended: when a background refresh (the forced `getPackages` reload
of `pollOnce`) fails at the backend list call, the previously cached
package list is discarded — `cachedPackages` is set to `nil` — and the
error is recorded in `refreshError`; the next read therefore refetches
instead of serving the old data. -/
theorem pollOnce_failure_clears (ps : List CachedPackageRevision)
    (fs : Option (List Function)) (re : Option Err) (e : Err) (isFR : Bool)
    (bf : Except Err (List Function)) :
    (pollOnce (Except.error e) isFR bf ⟨some ps, fs, re⟩).cachedPackages = none ∧
    (pollOnce (Except.error e) isFR bf ⟨some ps, fs, re⟩).refreshError = some e := by
  unfold pollOnce
  rw [getPackages_fst_force_error e (fun _ => true) ⟨some ps, fs, re⟩]
  have h2 := getFunctions_fst_preserves isFR bf true
    { cachedPackages := none, cachedFunctions := fs, refreshError := some e }
  exact ⟨h2.1, h2.2⟩

/-- C2: on a fresh cache (no cached list, no stored error) a failing
backend list call is recorded in `refreshError`, but the call itself
returns an empty, error-free package list: the error check before the
return reads the pre-call `refreshError` snapshot, because the fetch's
`p, err := ...` shadows the outer `err` inside the `if packages == nil`
block.  The recorded error is only surfaced by the next call, whatever its
backend result is. -/
theorem getPackages_freshFailure_behavior (e : Err) (f : CachedPackageRevision → Bool)
    (fs : Option (List Function)) :
    getPackages (Except.error e) f false ⟨none, fs, none⟩ =
      (⟨none, fs, some e⟩, Except.ok []) ∧
    ∀ backend2, (getPackages backend2 f false ⟨none, fs, some e⟩).2 = Except.error e := by
  constructor
  · rfl
  · intro b2
    cases b2 <;> rfl

/-- C4: `updateDraft` applies mutations strictly in order, each step's
output snapshot becoming the next step's input (the successful prefix is
`pipelineSteps`); if any step's `Apply` or the subsequent
`Draft.UpdateResources` fails, it returns that error with `Close` never
called, so nothing is committed — a never-closed Draft has no externally
visible effect — and `Close` is called exactly when every mutation
succeeded. -/
theorem updateDraft_pipeline_atomic {σ ρ : Type} (d : DraftModel σ ρ) (s : σ)
    (base : PackageResources) (muts : List MutationFn) :
    (∀ sf evs, pipelineSteps d s base muts = some (sf, evs) →
      updateDraftGo d s base muts = (evs ++ [EngineEvent.draftClose], d.close sf)) ∧
    (pipelineSteps d s base muts = none →
      EngineEvent.draftClose ∉ (updateDraftGo d s base muts).1 ∧
      ∃ e, (updateDraftGo d s base muts).2 = Except.error e) := by
  induction muts generalizing s base with
  | nil =>
    constructor
    · intro sf evs h
      simp only [pipelineSteps, Option.some.injEq, Prod.mk.injEq] at h
      rw [← h.1, ← h.2]
      rfl
    · intro h
      simp [pipelineSteps] at h
  | cons m rest ih =>
    rcases hm : m base with e | ⟨applied, t⟩
    · constructor
      · intro sf evs h
        simp [pipelineSteps, hm] at h
      · intro _
        refine ⟨?_, e, ?_⟩ <;> simp [updateDraftGo, hm]
    · rcases hu : d.updateResources s applied t with e | s'
      · constructor
        · intro sf evs h
          simp [pipelineSteps, hm, hu] at h
        · intro _
          refine ⟨?_, e, ?_⟩ <;> simp [updateDraftGo, hm, hu]
      · constructor
        · intro sf evs h
          rcases hps : pipelineSteps d s' applied rest with _ | ⟨sf', evs'⟩
          · simp [pipelineSteps, hm, hu, hps] at h
          · simp only [pipelineSteps, hm, hu, hps, Option.some.injEq,
              Prod.mk.injEq] at h
            have hrec := (ih s' applied).1 sf' evs' hps
            rw [← h.1, ← h.2]
            simp [updateDraftGo, hm, hu, hrec]
        · intro h
          rcases hps : pipelineSteps d s' applied rest with _ | ⟨sf', evs'⟩
          · have hrec := (ih s' applied).2 hps
            rcases hrec with ⟨hnc, e, he⟩
            constructor
            · simp only [updateDraftGo, hm, hu, List.mem_cons]
              rintro (h1 | h1)
              · cases h1
              · exact hnc h1
            · exact ⟨e, by simpa [updateDraftGo, hm, hu] using he⟩
          · simp [pipelineSteps, hm, hu, hps] at h

/-- C3: after `identifyLatestRevisions`, at most one revision per package
name carries `isLatestRevision = true`; a flagged revision is `Published`,
its revision string is valid semver (an invalid string never seeds the
latest slot), and it compares no lower — under `semver.Compare` — than any
published revision of its package, strictly higher than every
earlier-seen one (so revisions that compare equal keep the earlier one);
and whenever a package has a published revision with a valid revision
string, some revision of that package is flagged. -/
theorem identifyLatestRevisions_correct (l : List CachedPackageRevision) :
    (∀ (i j : Nat) (ci cj : CachedPackageRevision),
      (identifyLatestRevisions l)[i]? = some ci →
      (identifyLatestRevisions l)[j]? = some cj →
      ci.isLatestRevision = true → cj.isLatestRevision = true →
      ci.rev.key.Package = cj.rev.key.Package → i = j) ∧
    (∀ (i : Nat) (ci : CachedPackageRevision),
      (identifyLatestRevisions l)[i]? = some ci → ci.isLatestRevision = true →
      ci.rev.lifecycle = Lifecycle.published ∧
      Semver.IsValid ci.rev.key.Revision = true ∧
      (∀ (j : Nat) (cj : CachedPackageRevision),
        (identifyLatestRevisions l)[j]? = some cj →
        cj.rev.key.Package = ci.rev.key.Package →
        cj.rev.lifecycle = Lifecycle.published →
        (j < i → 0 < Semver.Compare ci.rev.key.Revision cj.rev.key.Revision) ∧
        0 ≤ Semver.Compare ci.rev.key.Revision cj.rev.key.Revision)) ∧
    (∀ (i : Nat) (ci : CachedPackageRevision),
      (identifyLatestRevisions l)[i]? = some ci →
      ci.rev.lifecycle = Lifecycle.published →
      Semver.IsValid ci.rev.key.Revision = true →
      ∃ (j : Nat) (cj : CachedPackageRevision),
        (identifyLatestRevisions l)[j]? = some cj ∧ cj.isLatestRevision = true ∧
        cj.rev.key.Package = ci.rev.key.Package) := by
  have hinit : MapInvAt l 0 [] :=
    ⟨List.nodup_nil, fun e he => absurd he (List.not_mem_nil e)⟩
  have hcov0 : CovInvAt l 0 [] := fun k ck hk => absurd hk (Nat.not_lt_zero k)
  have hrest0 : ∀ j : Nat, l[j]? = l[0 + j]? := fun j => by rw [Nat.zero_add]
  have hlen0 : 0 + l.length = l.length := Nat.zero_add _
  obtain ⟨⟨hndM, hentM⟩, hcovM⟩ := latestMapFrom_inv l 0 [] hinit hcov0 hrest0 hlen0
  refine ⟨?_, ?_, ?_⟩
  · intro i j ci cj hi hj hfi hfj hpkg
    rcases latest_flag_iff hi with ⟨c0i, hl_i, hrev_i, hiff_i⟩
    rcases latest_flag_iff hj with ⟨c0j, hl_j, hrev_j, hiff_j⟩
    rcases hiff_i.1 hfi with ⟨e, he, hei⟩
    rcases hiff_j.1 hfj with ⟨e', he', hej⟩
    obtain ⟨_, cei, hcei, hkei, _, _, _, _⟩ := hentM e he
    obtain ⟨_, cej, hcej, hkej, _, _, _, _⟩ := hentM e' he'
    rw [hei] at hcei
    rw [hej] at hcej
    have h1 : cei = c0i := Option.some.inj (hcei.symm.trans hl_i)
    have h2 : cej = c0j := Option.some.inj (hcej.symm.trans hl_j)
    have hkey_i : e.1 = ci.rev.key.Package := by
      rw [hrev_i, ← h1]
      exact hkei.symm
    have hkey_j : e'.1 = cj.rev.key.Package := by
      rw [hrev_j, ← h2]
      exact hkej.symm
    have hkk : e.1 = e'.1 := by rw [hkey_i, hkey_j, hpkg]
    have hee : e = e' := keys_nodup_mem_eq hndM he he' hkk
    rw [← hei, ← hej, hee]
  · intro i ci hi hfi
    rcases latest_flag_iff hi with ⟨c0i, hl_i, hrev_i, hiff_i⟩
    rcases hiff_i.1 hfi with ⟨e, he, hei⟩
    obtain ⟨hein, cei, hcei, hkei, hrevi, hpubi, hvali, halli⟩ := hentM e he
    rw [hei] at hcei
    have h1 : cei = c0i := Option.some.inj (hcei.symm.trans hl_i)
    have hcirev : ci.rev = cei.rev := by rw [hrev_i, h1]
    have hx : ci.rev.key.Revision = e.2.2 := by rw [hcirev, hrevi]
    refine ⟨by rw [hcirev]; exact hpubi, by rw [hx]; exact hvali, ?_⟩
    intro j cj hj hpkgj hpubj
    rcases latest_flag_iff hj with ⟨c0j, hl_j, hrev_j, _⟩
    have hjlen : j < l.length := by
      rw [List.getElem?_eq_some] at hl_j
      exact hl_j.1
    have hpkg' : c0j.rev.key.Package = e.1 := by
      rw [← hrev_j, hpkgj, hcirev]
      exact hkei
    have hpub' : c0j.rev.lifecycle = Lifecycle.published := by
      rw [← hrev_j]
      exact hpubj
    have hres := halli j c0j hjlen hl_j hpkg' hpub'
    have hy : cj.rev.key.Revision = c0j.rev.key.Revision := by rw [hrev_j]
    constructor
    · intro hji
      refine Semver.Compare_pos_iff.2 ?_
      rw [hx, hy]
      refine hres.1 ?_
      rw [hei]
      exact hji
    · refine Semver.Compare_nonneg_iff.2 ?_
      rw [hx, hy]
      exact hres.2
  · intro i ci hi hpubi hvali
    rcases latest_flag_iff hi with ⟨c0i, hl_i, hrev_i, _⟩
    have hilen : i < l.length := by
      rw [List.getElem?_eq_some] at hl_i
      exact hl_i.1
    have hpub0 : c0i.rev.lifecycle = Lifecycle.published := by
      rw [← hrev_i]
      exact hpubi
    have hval0 : Semver.IsValid c0i.rev.key.Revision = true := by
      rw [← hrev_i]
      exact hvali
    rcases hcovM i c0i hilen hl_i hpub0 hval0 with ⟨e, he, hkey⟩
    obtain ⟨hein, cej, hcej, hkej, _, _, _, _⟩ := hentM e he
    have hout : (identifyLatestRevisions l)[e.2.1]? = some
        { cej with
          isLatestRevision := (latestMapFrom 0 [] l).any fun x => x.2.1 == e.2.1 } := by
      rw [identifyLatest_getElem, hcej]
      rfl
    refine ⟨e.2.1, _, hout, ?_, ?_⟩
    · show ((latestMapFrom 0 [] l).any fun x => x.2.1 == e.2.1) = true
      refine List.any_eq_true.2 ⟨e, he, ?_⟩
      simp
    · show cej.rev.key.Package = ci.rev.key.Package
      rw [hkej, hkey, hrev_i]

/-- C3 witness: in a list holding a draft v1.1.0, a published v1.0.0 and a
published invalid revision of one package, plus a published revision of
another package, the published v1.0.0 revision is flagged latest and
compares no lower than the invalid published revision of its package. -/
theorem identifyLatestRevisions_correct_witness :
    ((identifyLatestRevisions [revB, revA, revC, revD])[1]? = some ⟨revA.rev, true⟩) ∧
    ((identifyLatestRevisions [revB, revA, revC, revD])[2]? = some ⟨revC.rev, false⟩) ∧
    (⟨revA.rev, true⟩ : CachedPackageRevision).isLatestRevision = true ∧
    ((⟨revC.rev, false⟩ : CachedPackageRevision).rev.key.Package =
      (⟨revA.rev, true⟩ : CachedPackageRevision).rev.key.Package) ∧
    (⟨revC.rev, false⟩ : CachedPackageRevision).rev.lifecycle = Lifecycle.published ∧
    0 ≤ Semver.Compare (⟨revA.rev, true⟩ : CachedPackageRevision).rev.key.Revision
      (⟨revC.rev, false⟩ : CachedPackageRevision).rev.key.Revision :=
  ⟨by decide, by decide, rfl, rfl, rfl,
    (((identifyLatestRevisions_correct [revB, revA, revC, revD]).2.1 1 ⟨revA.rev, true⟩
        (by decide) rfl).2.2 2 ⟨revC.rev, false⟩ (by decide) rfl rfl).2⟩

/-- C4 witness: a two-step pipeline whose second apply fails; the trace
contains no close and the run errors. -/
theorem updateDraft_pipeline_atomic_witness :
    pipelineSteps witDraft 0 ⟨[]⟩ [witMutOk, witMutFail] = none ∧
    (EngineEvent.draftClose ∉ (updateDraftGo witDraft 0 ⟨[]⟩ [witMutOk, witMutFail]).1 ∧
     ∃ e, (updateDraftGo witDraft 0 ⟨[]⟩ [witMutOk, witMutFail]).2 = Except.error e) :=
  ⟨rfl, (updateDraft_pipeline_atomic witDraft 0 ⟨[]⟩ [witMutOk, witMutFail]).2 rfl⟩

/-! ## Engine task-validation lemmas -/

theorem createTaskMutation_ok {p : String} {t : Task} {m : MutationSpec}
    (h : createTaskMutation p t = Except.ok m) :
    (t.type = TaskTypeClone ∧ m = MutationSpec.clonePackage t p) ∨
    (t.type = TaskTypeEval ∧ m = MutationSpec.evalFunction t) := by
  unfold createTaskMutation at h
  by_cases h1 : t.type = TaskTypeClone
  · rw [if_pos h1] at h
    rcases hc : t.clone with _ | _ <;> rw [hc] at h
    · cases h
    · simp only [Except.ok.injEq] at h
      exact Or.inl ⟨h1, h.symm⟩
  · rw [if_neg h1] at h
    by_cases h2 : t.type = TaskTypePatch
    · rw [if_pos h2] at h
      rcases hc : t.patch with _ | _ <;> rw [hc] at h <;> cases h
    · rw [if_neg h2] at h
      by_cases h3 : t.type = TaskTypeEval
      · rw [if_pos h3] at h
        rcases hc : t.eval with _ | _ <;> rw [hc] at h
        · cases h
        · simp only [Except.ok.injEq] at h
          exact Or.inr ⟨h3, h.symm⟩
      · rw [if_neg h3] at h
        cases h

theorem createTaskMutation_patch_bad {p : String} {t : Task}
    (h : t.type = TaskTypePatch) : ∀ m, createTaskMutation p t ≠ Except.ok m := by
  intro m hc
  rcases createTaskMutation_ok hc with ⟨h1, _⟩ | ⟨h1, _⟩
  · rw [h] at h1
    exact absurd h1 (by decide)
  · rw [h] at h1
    exact absurd h1 (by decide)

theorem createTaskMutation_unknown_bad {p : String} {t : Task}
    (h1 : t.type ≠ TaskTypeClone) (_h2 : t.type ≠ TaskTypePatch)
    (h3 : t.type ≠ TaskTypeEval) : ∀ m, createTaskMutation p t ≠ Except.ok m := by
  intro m hc
  rcases createTaskMutation_ok hc with ⟨h', _⟩ | ⟨h', _⟩
  · exact h1 h'
  · exact h3 h'

theorem buildCreateList_error_of_bad (p : String) :
    ∀ {tasks : List Task}, (∃ t ∈ tasks, ∀ m, createTaskMutation p t ≠ Except.ok m) →
      ∃ e, buildCreateMutationsList p tasks = Except.error e
  | [], ⟨t, ht, _⟩ => absurd ht (List.not_mem_nil t)
  | t0 :: ts, ⟨t, ht, hbad⟩ => by
    rcases hr : createTaskMutation p t0 with e | m
    · exact ⟨e, by simp [buildCreateMutationsList, hr]⟩
    · rcases List.mem_cons.1 ht with rfl | hts
      · exact absurd hr (hbad m)
      · rcases buildCreateList_error_of_bad p ⟨t, hts, hbad⟩ with ⟨e, he⟩
        exact ⟨e, by simp [buildCreateMutationsList, hr, he]⟩

theorem buildCreateList_ok_spec {p : String} :
    ∀ {tasks : List Task} {ms : List MutationSpec},
      buildCreateMutationsList p tasks = Except.ok ms →
      ms.length = tasks.length ∧
      ∀ (i : Nat) (t : Task), tasks[i]? = some t → ∃ m, ms[i]? = some m ∧
        ((t.type = TaskTypeClone ∧ m = MutationSpec.clonePackage t p) ∨
         (t.type = TaskTypeEval ∧ m = MutationSpec.evalFunction t))
  | [], ms, h => by
    simp only [buildCreateMutationsList, Except.ok.injEq] at h
    subst h
    exact ⟨rfl, by simp⟩
  | t0 :: ts, ms, h => by
    rcases hr : createTaskMutation p t0 with e | m0 <;>
      rw [buildCreateMutationsList, hr] at h
    · cases h
    · rcases hl : buildCreateMutationsList p ts with e | ms' <;> rw [hl] at h
      · cases h
      · simp only [Except.ok.injEq] at h
        subst h
        rcases buildCreateList_ok_spec hl with ⟨hlen, hidx⟩
        refine ⟨by simp [hlen], ?_⟩
        intro i t hti
        cases i with
        | zero =>
          simp only [List.getElem?_cons_zero, Option.some.injEq] at hti
          subst hti
          exact ⟨m0, by simp, createTaskMutation_ok hr⟩
        | succ j =>
          simp only [List.getElem?_cons_succ] at hti ⊢
          exact hidx j t hti

/-- C8: at `CreatePackageRevision`, a Patch task in the declared task list
is rejected, any task kind other than Clone, Patch, or Eval is rejected,
and when every declared task is accepted the built mutation list is
exactly one mutation per task in order followed by one unconditionally
appended Render, and the pipeline is driven from an empty initial
snapshot. -/
theorem createPackageRevision_task_handling (packageName : String) (tasks : List Task) :
    ((∃ t ∈ tasks, t.type = TaskTypePatch) →
      ∃ e, buildCreateMutations packageName tasks = Except.error e) ∧
    ((∃ t ∈ tasks, t.type ≠ TaskTypeClone ∧ t.type ≠ TaskTypePatch ∧
        t.type ≠ TaskTypeEval) →
      ∃ e, buildCreateMutations packageName tasks = Except.error e) ∧
    (∀ ms, buildCreateMutations packageName tasks = Except.ok ms →
      ∃ ms0, ms = ms0 ++ [MutationSpec.renderPackage] ∧ ms0.length = tasks.length ∧
        ∀ (i : Nat) (t : Task), tasks[i]? = some t → ∃ m, ms0[i]? = some m ∧
          ((t.type = TaskTypeClone ∧ m = MutationSpec.clonePackage t packageName) ∨
           (t.type = TaskTypeEval ∧ m = MutationSpec.evalFunction t))) ∧
    (∀ (σ ρ : Type) (w : EngineWorld σ ρ) (s : σ) ms,
      w.openRepo = Except.ok () → w.createDraft = Except.ok s →
      buildCreateMutations packageName tasks = Except.ok ms →
      createPackageRevision w packageName tasks =
        (EngineEvent.openRepository :: EngineEvent.openCreateDraft ::
          (updateDraftGo w.draft s ⟨[]⟩ (ms.map (applyMutation w.applyExt))).1,
         (updateDraftGo w.draft s ⟨[]⟩ (ms.map (applyMutation w.applyExt))).2)) := by
  refine ⟨?_, ?_, ?_, ?_⟩
  · rintro ⟨t, ht, htype⟩
    rcases buildCreateList_error_of_bad packageName
      ⟨t, ht, createTaskMutation_patch_bad htype⟩ with ⟨e, he⟩
    exact ⟨e, by simp [buildCreateMutations, he]⟩
  · rintro ⟨t, ht, h1, h2, h3⟩
    rcases buildCreateList_error_of_bad packageName
      ⟨t, ht, createTaskMutation_unknown_bad h1 h2 h3⟩ with ⟨e, he⟩
    exact ⟨e, by simp [buildCreateMutations, he]⟩
  · intro ms h
    rcases hl : buildCreateMutationsList packageName tasks with e | ms0 <;>
      rw [buildCreateMutations, hl] at h
    · cases h
    · simp only [Except.ok.injEq] at h
      subst h
      rcases buildCreateList_ok_spec hl with ⟨hlen, hidx⟩
      exact ⟨ms0, rfl, hlen, hidx⟩
  · intro σ ρ w s ms hok hcd hbm
    simp [createPackageRevision, hok, hcd, hbm]

/-- C8 witness: a patch task is rejected, an unknown kind is rejected, and
a clone-then-eval list builds clone, eval, render in order, run from the
empty snapshot. -/
theorem createPackageRevision_task_handling_witness :
    (∃ e, buildCreateMutations witPkgName [patchTask] = Except.error e) ∧
    (∃ e, buildCreateMutations witPkgName [weirdTask] = Except.error e) ∧
    buildCreateMutations witPkgName [cloneTask, evalTask] =
      Except.ok [MutationSpec.clonePackage cloneTask witPkgName,
        MutationSpec.evalFunction evalTask, MutationSpec.renderPackage] ∧
    createPackageRevision witWorld witPkgName [cloneTask, evalTask] =
      (EngineEvent.openRepository :: EngineEvent.openCreateDraft ::
        (updateDraftGo witWorld.draft 0 ⟨[]⟩
          (([MutationSpec.clonePackage cloneTask witPkgName,
             MutationSpec.evalFunction evalTask,
             MutationSpec.renderPackage]).map (applyMutation witWorld.applyExt))).1,
       (updateDraftGo witWorld.draft 0 ⟨[]⟩
          (([MutationSpec.clonePackage cloneTask witPkgName,
             MutationSpec.evalFunction evalTask,
             MutationSpec.renderPackage]).map (applyMutation witWorld.applyExt))).2) :=
  ⟨(createPackageRevision_task_handling witPkgName [patchTask]).1
      ⟨patchTask, by decide, by decide⟩,
   (createPackageRevision_task_handling witPkgName [weirdTask]).2.1
      ⟨weirdTask, by decide, by decide, by decide, by decide⟩,
   rfl,
   (createPackageRevision_task_handling witPkgName [cloneTask, evalTask]).2.2.2
      Nat Nat witWorld 0 _ rfl rfl rfl⟩

/-- C5 counterexample: a `CreatePackageRevision` request with a patch task
is rejected as unsupported, but only after `repo.CreatePackageRevision`
has already opened a Draft: the trace contains the draft-open call and the
error return follows it. -/
theorem createPackageRevision_draft_before_validation_cex :
    (∃ e, (createPackageRevision witWorld witPkgName [patchTask]).2 = Except.error e) ∧
    EngineEvent.openCreateDraft ∈ (createPackageRevision witWorld witPkgName [patchTask]).1 :=
  ⟨⟨Err.patchNotSupportedOnCreate, rfl⟩, by decide⟩

/-- C5 amended: an unsupported task list is rejected before any mutation is
applied and before any Draft update or close; for `UpdatePackageRevision`
the error is returned before the update Draft is opened, while for
`CreatePackageRevision` the create Draft has already been opened before
task validation, so there the error follows the draft-open call but still
precedes every Draft mutation. -/
theorem engine_unsupported_tasks_reject_early {σ ρ : Type} (w : EngineWorld σ ρ)
    (packageName : String) (tasks oldTs newTs : List Task) (e e' : Err) (s : σ)
    (hok : w.openRepo = Except.ok ()) (hcd : w.createDraft = Except.ok s)
    (hbc : buildCreateMutations packageName tasks = Except.error e)
    (hbu : buildUpdateMutations oldTs newTs = Except.error e') :
    createPackageRevision w packageName tasks =
      ([EngineEvent.openRepository, EngineEvent.openCreateDraft], Except.error e) ∧
    updatePackageRevision w oldTs newTs =
      ([EngineEvent.openRepository], Except.error e') := by
  constructor
  · simp [createPackageRevision, hok, hcd, hbc]
  · simp [updatePackageRevision, hok, hbu]

/-- C5 witness: the amended behavior at a patch-at-create request and at a
task list whose length changed. -/
theorem engine_unsupported_tasks_reject_early_witness :
    witWorld.openRepo = Except.ok () ∧ witWorld.createDraft = Except.ok 0 ∧
    buildCreateMutations witPkgName [patchTask] =
      Except.error Err.patchNotSupportedOnCreate ∧
    buildUpdateMutations [cloneTask] [cloneTask, cloneTask] =
      Except.error Err.addRemoveTasksNotSupported ∧
    (createPackageRevision witWorld witPkgName [patchTask] =
      ([EngineEvent.openRepository, EngineEvent.openCreateDraft],
        Except.error Err.patchNotSupportedOnCreate) ∧
     updatePackageRevision witWorld [cloneTask] [cloneTask, cloneTask] =
      ([EngineEvent.openRepository], Except.error Err.addRemoveTasksNotSupported)) :=
  ⟨rfl, rfl, rfl, rfl,
    engine_unsupported_tasks_reject_early witWorld witPkgName [patchTask]
      [cloneTask] [cloneTask, cloneTask] Err.patchNotSupportedOnCreate
      Err.addRemoveTasksNotSupported 0 rfl rfl rfl rfl⟩

/-! ## Resource-diff lemmas -/

theorem lookupRes_eq_none {k : String} :
    ∀ {l : List (String × String)}, lookupRes k l = none ↔ k ∉ l.map Prod.fst
  | [] => by simp [lookupRes]
  | kv :: rest => by
    by_cases h : kv.1 = k
    · simp [lookupRes, h]
    · simp only [lookupRes, if_neg h, List.map_cons, List.mem_cons]
      rw [lookupRes_eq_none]
      constructor
      · intro hn
        rintro (h1 | h2)
        · exact h h1.symm
        · exact hn h2
      · intro hn
        exact fun h2 => hn (Or.inr h2)

theorem lookupRes_of_mem {k v : String} :
    ∀ {l : List (String × String)}, (l.map Prod.fst).Nodup → (k, v) ∈ l →
      lookupRes k l = some v
  | [], _, hm => absurd hm (List.not_mem_nil _)
  | kv :: rest, hnd, hm => by
    simp only [List.map_cons, List.nodup_cons] at hnd
    rcases List.mem_cons.1 hm with rfl | hrest
    · simp [lookupRes]
    · have hne : kv.1 ≠ k := by
        intro he
        exact hnd.1 (he ▸ List.mem_map_of_mem Prod.fst hrest)
      rw [lookupRes, if_neg hne]
      exact lookupRes_of_mem hnd.2 hrest

theorem mem_of_lookupRes {k v : String} :
    ∀ {l : List (String × String)}, lookupRes k l = some v → (k, v) ∈ l
  | [], h => by cases h
  | kv :: rest, h => by
    by_cases he : kv.1 = k
    · rw [lookupRes, if_pos he] at h
      simp only [Option.some.injEq] at h
      subst h
      subst he
      exact List.mem_cons_self kv rest
    · rw [lookupRes, if_neg he] at h
      exact List.mem_cons_of_mem kv (mem_of_lookupRes h)

theorem mem_filtermap_fst {k : String} {l : List (String × String)}
    {p : String × String → Bool} :
    k ∈ (l.filter p).map Prod.fst ↔ ∃ v, (k, v) ∈ l ∧ p (k, v) := by
  constructor
  · intro h
    rcases List.mem_map.1 h with ⟨⟨a, b⟩, hm, hfst⟩
    rcases List.mem_filter.1 hm with ⟨hmem, hp⟩
    cases hfst
    exact ⟨b, hmem, hp⟩
  · rintro ⟨v, hm, hp⟩
    exact List.mem_map.2 ⟨(k, v), List.mem_filter.2 ⟨hm, hp⟩, rfl⟩

theorem mem_diff_paths_iff (newRes oldC : List (String × String))
    (hnew : (newRes.map Prod.fst).Nodup) (hold : (oldC.map Prod.fst).Nodup)
    (k : String) :
    (k ∈ ((newRes.filter fun kv =>
        match lookupRes kv.1 oldC with
        | none => true
        | some oldV => kv.2 != oldV).map Prod.fst ++
      (oldC.filter fun kv => (lookupRes kv.1 newRes).isNone).map Prod.fst) ↔
      lookupRes k oldC ≠ lookupRes k newRes) := by
  rw [List.mem_append, mem_filtermap_fst, mem_filtermap_fst]
  constructor
  · rintro (⟨v, hm, hp⟩ | ⟨w, hm, hp⟩)
    · have hv : lookupRes k newRes = some v := lookupRes_of_mem hnew hm
      have hp' : (match lookupRes k oldC with
          | none => true
          | some oldV => v != oldV) = true := hp
      rcases ho : lookupRes k oldC with _ | w
      · rw [hv]
        simp
      · rw [ho] at hp'
        simp only [bne_iff_ne, ne_eq] at hp'
        rw [hv]
        simp only [ne_eq, Option.some.injEq]
        exact fun he => hp' he.symm
    · have hw : lookupRes k oldC = some w := lookupRes_of_mem hold hm
      have hp' : (lookupRes k newRes).isNone = true := hp
      rw [Option.isNone_iff_eq_none] at hp'
      rw [hw, hp']
      simp
  · intro hne
    rcases hn : lookupRes k newRes with _ | v
    · rcases ho : lookupRes k oldC with _ | w
      · rw [ho, hn] at hne
        exact absurd rfl hne
      · refine Or.inr ⟨w, mem_of_lookupRes ho, ?_⟩
        show (lookupRes k newRes).isNone = true
        rw [hn]
        rfl
    · refine Or.inl ⟨v, mem_of_lookupRes hn, ?_⟩
      show (match lookupRes k oldC with
          | none => true
          | some oldV => v != oldV) = true
      rcases ho : lookupRes k oldC with _ | w
      · rfl
      · rw [ho, hn] at hne
        simp only [ne_eq, Option.some.injEq] at hne
        simp only [bne_iff_ne, ne_eq]
        exact fun he => hne (by rw [he])

theorem replaceResourcesApply_fst (newRes : List (String × String))
    (r : PackageResources) : (replaceResourcesApply newRes r).1 = ⟨newRes⟩ := rfl

/-! ## Sorting lemmas -/

theorem pkgRevCmp_eq_kube {a b : CachedPackageRevision} (h : pkgRevCmp a b = .eq) :
    a.rev.kubeObjectName = b.rev.kubeObjectName := by
  unfold pkgRevCmp at h
  rw [Ordering.then_eq_eq] at h
  rw [Ordering.then_eq_eq] at h
  rw [Ordering.then_eq_eq] at h
  exact Batteries.BEqCmp.cmp_iff_eq.1 h.2.2.2

theorem pkgRevLess_iff {a b : CachedPackageRevision} :
    pkgRevLess a b = true ↔ pkgRevCmp a b = .lt := by
  unfold pkgRevLess
  cases pkgRevCmp a b <;> decide

theorem insertSorted_perm (a : CachedPackageRevision) :
    ∀ l, List.Perm (insertSorted a l) (a :: l)
  | [] => List.Perm.refl _
  | b :: t => by
    unfold insertSorted
    by_cases h : pkgRevLess a b
    · rw [if_pos h]
    · rw [if_neg h]
      exact ((insertSorted_perm a t).cons b).trans (List.Perm.swap a b t)

theorem sortRevs_perm : ∀ l, List.Perm (sortRevs l) l
  | [] => List.Perm.refl _
  | a :: t => (insertSorted_perm a (sortRevs t)).trans ((sortRevs_perm t).cons a)

theorem insertSorted_pairwise {a : CachedPackageRevision} :
    ∀ {l}, l.Pairwise (fun x y => pkgRevCmp x y ≠ .gt) →
      (insertSorted a l).Pairwise (fun x y => pkgRevCmp x y ≠ .gt)
  | [], _ => by simp [insertSorted]
  | b :: t, hp => by
    unfold insertSorted
    rcases List.pairwise_cons.1 hp with ⟨hbt, htp⟩
    by_cases h : pkgRevLess a b
    · rw [if_pos h]
      have hlt : pkgRevCmp a b = .lt := pkgRevLess_iff.1 h
      refine List.pairwise_cons.2 ⟨?_, hp⟩
      intro x hx
      rcases List.mem_cons.1 hx with rfl | hxt
      · simp [hlt]
      · have := Batteries.TransCmp.lt_le_trans hlt (hbt x hxt)
        simp [this]
    · rw [if_neg h]
      have hnlt : pkgRevCmp a b ≠ .lt := fun hl => h (pkgRevLess_iff.2 hl)
      refine List.pairwise_cons.2 ⟨?_, insertSorted_pairwise htp⟩
      intro x hx
      rcases List.mem_cons.1 ((insertSorted_perm a t).mem_iff.1 hx) with rfl | hxt
      · exact fun hgt => hnlt (Batteries.OrientedCmp.cmp_eq_gt.1 hgt)
      · exact hbt x hxt

theorem sortRevs_pairwise :
    ∀ l, (sortRevs l).Pairwise (fun x y => pkgRevCmp x y ≠ .gt)
  | [] => List.Pairwise.nil
  | _a :: t => insertSorted_pairwise (sortRevs_pairwise t)

theorem sorted_perm_eq {l₁ : List CachedPackageRevision} :
    ∀ {l₂}, List.Perm l₁ l₂ →
      l₁.Pairwise (fun x y => pkgRevCmp x y ≠ .gt) →
      l₂.Pairwise (fun x y => pkgRevCmp x y ≠ .gt) →
      (∀ a ∈ l₁, ∀ b ∈ l₁, pkgRevCmp a b = .eq → a = b) → l₁ = l₂ := by
  induction l₁ with
  | nil =>
    intro l₂ hp _ _ _
    exact hp.nil_eq
  | cons a t₁ ih =>
    intro l₂ hp hs₁ hs₂ hanti
    rcases l₂ with _ | ⟨b, t₂⟩
    · exact absurd hp.symm.nil_eq (by simp)
    · rcases List.pairwise_cons.1 hs₁ with ⟨hat₁, hs₁'⟩
      rcases List.pairwise_cons.1 hs₂ with ⟨hbt₂, hs₂'⟩
      have hab : a = b := by
        by_contra hne
        have hbmem : b ∈ a :: t₁ := hp.mem_iff.2 (List.mem_cons_self b t₂)
        have hamem : a ∈ b :: t₂ := hp.mem_iff.1 (List.mem_cons_self a t₁)
        rcases List.mem_cons.1 hbmem with rfl | hbt
        · exact hne rfl
        rcases List.mem_cons.1 hamem with heq | hat
        · exact hne heq
        have h1 : pkgRevCmp a b ≠ .gt := hat₁ b hbt
        have h2 : pkgRevCmp b a ≠ .gt := hbt₂ a hat
        have h3 : pkgRevCmp a b ≠ .lt :=
          fun hl => h2 (Batteries.OrientedCmp.cmp_eq_gt.2 hl)
        have heq : pkgRevCmp a b = .eq := by
          rcases hc : pkgRevCmp a b with _ | _ | _
          · exact absurd hc h3
          · rfl
          · exact absurd hc h1
        exact hne (hanti a (List.mem_cons_self a t₁) b (List.mem_cons.2 (Or.inr hbt)) heq)
      subst hab
      have ht : List.Perm t₁ t₂ := hp.cons_inv
      have := ih ht hs₁' hs₂' fun x hx y hy =>
        hanti x (List.mem_cons_of_mem a hx) y (List.mem_cons_of_mem a hy)
      rw [this]

/-- C6: for any fixed revision set and filter, `toPackageRevisionSlice`
returns exactly the matching revisions — a permutation of the filtered
input — sorted ascending by `Package`, then by the raw `Revision` string,
then by the `Lifecycle` string, then by the stable `KubeObjectName`; and
for inputs that are permutations of each other (the same set in any
arrival order), with stable object names identifying the revisions, the
two outputs are identical. -/
theorem toPackageRevisionSlice_sorted_deterministic
    (cached cached2 : List CachedPackageRevision) (filter : CachedPackageRevision → Bool)
    (hperm : List.Perm cached cached2)
    (hids : ∀ a ∈ cached, ∀ b ∈ cached,
      a.rev.kubeObjectName = b.rev.kubeObjectName → a = b) :
    List.Perm (toPackageRevisionSlice cached filter) (cached.filter filter) ∧
    (toPackageRevisionSlice cached filter).Pairwise (fun x y => pkgRevCmp x y ≠ .gt) ∧
    toPackageRevisionSlice cached filter = toPackageRevisionSlice cached2 filter := by
  refine ⟨sortRevs_perm _, sortRevs_pairwise _, ?_⟩
  apply sorted_perm_eq
  · exact (sortRevs_perm _).trans ((hperm.filter filter).trans (sortRevs_perm _).symm)
  · exact sortRevs_pairwise _
  · exact sortRevs_pairwise _
  · intro a ha b hb heq
    have ha' : a ∈ cached :=
      List.mem_of_mem_filter ((sortRevs_perm _).mem_iff.1 ha)
    have hb' : b ∈ cached :=
      List.mem_of_mem_filter ((sortRevs_perm _).mem_iff.1 hb)
    exact hids a ha' b hb' (pkgRevCmp_eq_kube heq)

/-- C6 witness: the same two-revision set in both arrival orders produces
the same sorted listing. -/
theorem toPackageRevisionSlice_sorted_deterministic_witness :
    List.Perm [revD, revA] [revA, revD] ∧
    (∀ a ∈ [revD, revA], ∀ b ∈ [revD, revA],
      a.rev.kubeObjectName = b.rev.kubeObjectName → a = b) ∧
    (List.Perm (toPackageRevisionSlice [revD, revA] (fun _ => true))
        ([revD, revA].filter (fun _ => true)) ∧
     (toPackageRevisionSlice [revD, revA] (fun _ => true)).Pairwise
        (fun x y => pkgRevCmp x y ≠ .gt) ∧
     toPackageRevisionSlice [revD, revA] (fun _ => true) =
        toPackageRevisionSlice [revA, revD] (fun _ => true)) :=
  ⟨by decide, by decide,
    toPackageRevisionSlice_sorted_deterministic [revD, revA] [revA, revD]
      (fun _ => true) (by decide) (by decide)⟩

/-- C7: `ReplaceResources`, applied to an input snapshot and a new file
map, returns an output snapshot whose contents equal the new map exactly
and emits a patch task whose path list holds, as a set, exactly the paths
added, changed, or removed between the input snapshot and the new map;
`UpdatePackageResources` runs exactly this single mutation — one Draft
update, then close, with no render step appended. -/
theorem replaceResources_diff_exact {σ ρ : Type} (w : EngineWorld σ ρ)
    (oldRes newRes base : List (String × String)) (s s' : σ)
    (hnew : (newRes.map Prod.fst).Nodup) (hbase : (base.map Prod.fst).Nodup)
    (hok : w.openRepo = Except.ok ()) (hup : w.openUpdate = Except.ok s)
    (hgr : w.getResources = Except.ok base)
    (hupd : w.draft.updateResources s ⟨newRes⟩
        (some (replaceResourcesApply newRes ⟨base⟩).2) = Except.ok s') :
    (replaceResourcesApply newRes ⟨base⟩).1.contents = newRes ∧
    (∃ paths, (replaceResourcesApply newRes ⟨base⟩).2.patch = some ⟨paths⟩ ∧
      ∀ k, k ∈ paths ↔ lookupRes k base ≠ lookupRes k newRes) ∧
    updatePackageResources w oldRes newRes =
      ([EngineEvent.openRepository, EngineEvent.openUpdateDraft,
        EngineEvent.draftUpdateResources ⟨newRes⟩
          (some (replaceResourcesApply newRes ⟨base⟩).2),
        EngineEvent.draftClose], w.draft.close s') := by
  refine ⟨rfl, ⟨_, rfl, mem_diff_paths_iff newRes base hnew hbase⟩, ?_⟩
  simp [updatePackageResources, hok, hup, hgr, updateDraftGo, applyMutation,
    replaceResourcesApply_fst, hupd]

/-- C7 witness: the spec's instance — input snapshot `a=1, b=2`, new map
`a=1, c=3` — reports exactly the path set containing b and c and returns
the new map verbatim, through a single draft update. -/
theorem replaceResources_diff_exact_witness :
    (replaceResourcesApply [("a", "1"), ("c", "3")] ⟨[("a", "1"), ("b", "2")]⟩).2.patch =
      some ⟨["c", "b"]⟩ ∧
    ((replaceResourcesApply [("a", "1"), ("c", "3")]
        ⟨[("a", "1"), ("b", "2")]⟩).1.contents = [("a", "1"), ("c", "3")] ∧
     (∃ paths, (replaceResourcesApply [("a", "1"), ("c", "3")]
          ⟨[("a", "1"), ("b", "2")]⟩).2.patch = some ⟨paths⟩ ∧
        ∀ k, k ∈ paths ↔
          lookupRes k [("a", "1"), ("b", "2")] ≠ lookupRes k [("a", "1"), ("c", "3")]) ∧
     updatePackageResources witWorld2 [("a", "1"), ("b", "2")] [("a", "1"), ("c", "3")] =
      ([EngineEvent.openRepository, EngineEvent.openUpdateDraft,
        EngineEvent.draftUpdateResources ⟨[("a", "1"), ("c", "3")]⟩
          (some (replaceResourcesApply [("a", "1"), ("c", "3")]
            ⟨[("a", "1"), ("b", "2")]⟩).2),
        EngineEvent.draftClose], witWorld2.draft.close 1)) :=
  ⟨rfl, replaceResources_diff_exact witWorld2 [("a", "1"), ("b", "2")]
    [("a", "1"), ("c", "3")] [("a", "1"), ("b", "2")] 0 1
    (by decide) (by decide) rfl rfl rfl rfl⟩

end KptPorch
